import Mathlib

/-!
Shallow embedding of the cubification core (`src/cs/`) of a MiniSat-based
solver: the `Cube` data type, the `CubeIndex` trie, the bounded `CubeQueue`,
the transient/persistent `Bimap`, the Luby restart schedule, and the phases
of the interleaved solve step.  Machine integers are modelled by `Nat`/`Int`
(with explicit `% 2^64` where `size_t` wraparound matters) and floating
point scores by `ℚ`.
-/

namespace CS

/-- MiniSat's three-valued `lbool`. -/
inductive Lbool where
| ltrue : Lbool
| lfalse : Lbool
| lundef : Lbool
deriving DecidableEq, Repr

/-- A literal is encoded as `2*v + s` (MiniSat `Lit.x`); negation flips the
sign bit (`operator~` does `q.x = p.x ^ 1`). -/
def litNeg (L : Nat) : Nat := L ^^^ 1

/-- `var(L)` is `x >> 1`. -/
def litVar (L : Nat) : Nat := L / 2

/-- `Cube` (src/cs/Cube.h): a conjunction of literals, the private vector
`literals`. -/
structure Cube where
  literals : List Nat
deriving DecidableEq, Repr

/-- `Cube::size`. -/
def Cube.size (c : Cube) : Nat := c.literals.length

/-- `Cube::contains`: linear scan for an equal literal. -/
def Cube.contains (c : Cube) (L : Nat) : Bool := c.literals.contains L

/-- The bubble-insert loop of `Cube::push`, viewed from the back of the
vector: the C++ code appends `L` and swaps it leftwards while it is
smaller than its left neighbour, stopping at the first non-swap.  Acting
on the reversed literal list, `L` moves past every element `y` with
`L < y` and stops in front of the first `y` with `¬(L < y)`. -/
def bubbleRev (L : Nat) : List Nat → List Nat
| [] => [L]
| y :: ys => if L < y then y :: bubbleRev L ys else L :: y :: ys

/-- `Cube::push`: no-op when the literal is already contained, else the
bubble insert. -/
def Cube.push (c : Cube) (L : Nat) : Cube :=
  if c.contains L then c else ⟨(bubbleRev L c.literals.reverse).reverse⟩

/-- The scan of `Cube::pop`: remove the first occurrence of `L`, shifting
the remaining literals left. -/
def removeFirst (L : Nat) : List Nat → List Nat
| [] => []
| x :: xs => if x = L then xs else x :: removeFirst L xs

/-- `Cube::pop`. -/
def Cube.pop (c : Cube) (L : Nat) : Cube := ⟨removeFirst L c.literals⟩

/-- `Cube::invert`: the clause holding the negations of the cube's
literals, in positional order. -/
def Cube.invert (c : Cube) : List Nat := c.literals.map litNeg

/-- `Cube::inverted`: build a cube by pushing the negation of every
literal of a clause, starting from the empty cube. -/
def Cube.inverted (clause : List Nat) : Cube :=
  clause.foldl (fun cu L => cu.push (litNeg L)) ⟨[]⟩

/-- `size_t` modulus. -/
def sizeTMod : Nat := 2 ^ 64

/-- The loop of `Cube::sane`, iterating `i` from `0` while `i < bound`
where `bound` is the `size_t` value `literals.size() - 1`; `rem` counts the
remaining iterations `bound - i`.  Vector accesses are checked: an
out-of-range access (undefined behaviour in the source) yields `none`. -/
def saneLoop (lits : List Nat) : Nat → Nat → Option Bool
| _, 0 => some true
| i, rem + 1 =>
    match lits.get? i, lits.get? (i + 1) with
    | some A, some B =>
        if ¬ (A < B) then some false
        else if litVar A = litVar B then some false
        else saneLoop lits (i + 1) rem
    | _, _ => none

/-- `Cube::sane` with the loop bound computed in `size_t` arithmetic:
`literals.size() - 1` wraps to `2^64 - 1` on the empty vector. -/
def Cube.saneChecked (c : Cube) : Option Bool :=
  saneLoop c.literals 0 ((c.literals.length + (sizeTMod - 1)) % sizeTMod)

/-! ### Lemmas about `Cube` operations -/

/-- `bubbleRev` splits the list at the insertion point: the scanned prefix
consists of elements above `L`. -/
theorem bubbleRev_split (L : Nat) (ys : List Nat) :
    ∃ C D, bubbleRev L ys = C ++ L :: D ∧ C ++ D = ys ∧ ∀ y ∈ C, L < y := by
  induction ys with
  | nil => exact ⟨[], [], rfl, rfl, by simp⟩
  | cons y ys ih =>
      by_cases h : L < y
      · obtain ⟨C, D, h1, h2, h3⟩ := ih
        refine ⟨y :: C, D, ?_, ?_, ?_⟩
        · simp [bubbleRev, h, h1]
        · simp [h2]
        · intro z hz
          rcases List.mem_cons.mp hz with hz | hz
          · omega
          · exact h3 z hz
      · exact ⟨[], y :: ys, by simp [bubbleRev, h], rfl, by simp⟩

theorem removeFirst_append (L : Nat) (A B : List Nat) (hA : L ∉ A) :
    removeFirst L (A ++ L :: B) = A ++ B := by
  induction A with
  | nil => simp [removeFirst]
  | cons a as ih =>
      have ha : a ≠ L := by
        intro h; exact hA (h ▸ List.mem_cons_self a as)
      have : L ∉ as := fun h => hA (List.mem_cons_of_mem a h)
      simp [removeFirst, ha, ih this]

/-- Pushing a fresh literal and then popping it restores the cube. -/
theorem cube_push_pop (c : Cube) (L : Nat)
    (h : c.contains L = false) : (c.push L).pop L = c := by
  have hmem : L ∉ c.literals := by
    simpa [Cube.contains] using h
  obtain ⟨C, D, h1, h2, h3⟩ := bubbleRev_split L c.literals.reverse
  have hrev : (bubbleRev L c.literals.reverse).reverse
      = D.reverse ++ L :: C.reverse := by
    simp [h1]
  have hCD : D.reverse ++ C.reverse = c.literals := by
    have := congrArg List.reverse h2
    simpa [List.reverse_append] using this
  have hLD : L ∉ D.reverse := by
    intro hmemD
    apply hmem
    have : L ∈ D.reverse ++ C.reverse := List.mem_append_left _ hmemD
    simpa [hCD] using this
  have hif : c.push L = ⟨(bubbleRev L c.literals.reverse).reverse⟩ := by
    rw [Cube.push, if_neg (by simp [h])]
  rw [hif, Cube.pop, hrev]
  rw [removeFirst_append L _ _ hLD]
  exact congrArg Cube.mk hCD

/-- Pushing an already-present literal is a no-op. -/
theorem cube_push_mem (c : Cube) (L : Nat)
    (h : c.contains L = true) : c.push L = c := by
  simp [Cube.push, h]

/-- `bubbleRev` preserves descending sortedness when `L` is fresh. -/
theorem bubbleRev_sorted (L : Nat) (ys : List Nat)
    (hs : List.Sorted (· > ·) ys) (hf : L ∉ ys) :
    List.Sorted (· > ·) (bubbleRev L ys) := by
  induction ys with
  | nil => simp [bubbleRev]
  | cons y ys ih =>
      have hy : ∀ z ∈ ys, y > z := fun z hz => (List.sorted_cons.mp hs).1 z hz
      have hs' : List.Sorted (· > ·) ys := (List.sorted_cons.mp hs).2
      have hfy : L ≠ y := fun h => hf (h ▸ List.mem_cons_self y ys)
      have hf' : L ∉ ys := fun h => hf (List.mem_cons_of_mem y h)
      by_cases h : L < y
      · have hmem : ∀ z ∈ bubbleRev L ys, z ∈ ys ∨ z = L := by
          obtain ⟨C, D, h1, h2, h3⟩ := bubbleRev_split L ys
          intro z hz
          rw [h1] at hz
          rcases List.mem_append.mp hz with hz | hz
          · exact Or.inl (h2 ▸ List.mem_append_left D hz)
          · rcases List.mem_cons.mp hz with hz | hz
            · exact Or.inr hz
            · exact Or.inl (h2 ▸ List.mem_append_right C hz)
        rw [bubbleRev, if_pos h]
        refine List.sorted_cons.mpr ⟨?_, ih hs' hf'⟩
        intro z hz
        rcases hmem z hz with hz | hz
        · exact hy z hz
        · omega
      · rw [bubbleRev, if_neg h]
        have hyL : y < L := by omega
        refine List.sorted_cons.mpr ⟨?_, hs⟩
        intro z hz
        rcases List.mem_cons.mp hz with hz | hz
        · omega
        · have := hy z hz; omega

/-- Descending sortedness of the reverse is ascending sortedness. -/
theorem sorted_gt_reverse (l : List Nat) :
    List.Sorted (· > ·) l.reverse ↔ List.Sorted (· < ·) l := by
  rw [List.Sorted, List.pairwise_reverse]

/-- `Cube::push` preserves the ascending-order representation invariant. -/
theorem cube_push_sorted (c : Cube) (L : Nat)
    (hs : List.Sorted (· < ·) c.literals) :
    List.Sorted (· < ·) (c.push L).literals := by
  by_cases h : c.contains L
  · simpa [cube_push_mem c L h] using hs
  · have hb : c.contains L = false := by
      simpa using h
    have hmem : L ∉ c.literals := by
      simpa [Cube.contains] using hb
    have hrev : List.Sorted (· > ·) c.literals.reverse :=
      (sorted_gt_reverse c.literals).mpr hs
    have hfrev : L ∉ c.literals.reverse := by simpa using hmem
    have hsp := bubbleRev_sorted L c.literals.reverse hrev hfrev
    have hif : c.push L = ⟨(bubbleRev L c.literals.reverse).reverse⟩ := by
      rw [Cube.push, if_neg (by simp [hb])]
    rw [hif]
    have : List.Sorted (· > ·) ((bubbleRev L c.literals.reverse).reverse).reverse := by
      simpa using hsp
    exact (sorted_gt_reverse _).mp this

/-- Pushing an element above everything in a sorted cube appends it. -/
theorem cube_push_append (acc : List Nat) (x : Nat)
    (h : ∀ y ∈ acc, y < x) :
    Cube.push ⟨acc⟩ x = ⟨acc ++ [x]⟩ := by
  have hc : Cube.contains ⟨acc⟩ x = false := by
    have : x ∉ acc := fun hx => absurd (h x hx) (lt_irrefl x)
    simpa [Cube.contains] using this
  rw [Cube.push, if_neg (by simp [hc])]
  simp only [Cube.mk.injEq]
  have : bubbleRev x acc.reverse = x :: acc.reverse := by
    cases hacc : acc.reverse with
    | nil => simp [bubbleRev]
    | cons y ys =>
        have hy : y ∈ acc := by
          have : y ∈ acc.reverse := by rw [hacc]; exact List.mem_cons_self y ys
          simpa using this
        have : ¬ x < y := by have := h y hy; omega
        simp [bubbleRev, this]
  simp [this]

/-- Folding `push` over a sorted list starting from the empty cube
reproduces the list. -/
theorem cube_foldl_push (lits : List Nat)
    (hs : List.Sorted (· < ·) lits) :
    lits.foldl (fun (cu : Cube) (L : Nat) => cu.push L) ⟨[]⟩ = ⟨lits⟩ := by
  suffices h : ∀ (rest acc : List Nat), List.Sorted (· < ·) (acc ++ rest) →
      rest.foldl (fun (cu : Cube) (L : Nat) => cu.push L) ⟨acc⟩ = ⟨acc ++ rest⟩ by
    simpa using h lits [] (by simpa using hs)
  intro rest
  induction rest with
  | nil => intro acc _; simp
  | cons x xs ih =>
      intro acc hsort
      have hx : ∀ y ∈ acc, y < x := by
        intro y hy
        have := List.pairwise_append.mp hsort
        exact this.2.2 y hy x (List.mem_cons_self x xs)
      rw [List.foldl_cons, cube_push_append acc x hx]
      have : List.Sorted (· < ·) ((acc ++ [x]) ++ xs) := by
        simpa using hsort
      simpa using ih (acc ++ [x]) this

/-- Double literal negation is the identity. -/
theorem litNeg_litNeg (L : Nat) : litNeg (litNeg L) = L := by
  simp [litNeg, Nat.xor_assoc]

/-- `Cube.inverted` of `Cube::invert` rebuilds the cube, given the
representation invariant. -/
theorem cube_inverted_invert (c : Cube)
    (hs : List.Sorted (· < ·) c.literals) :
    Cube.inverted c.invert = c := by
  rw [Cube.inverted, Cube.invert, List.foldl_map]
  have : (fun (cu : Cube) (L : Nat) => cu.push (litNeg (litNeg L)))
      = fun (cu : Cube) (L : Nat) => cu.push L := by
    funext cu L; rw [litNeg_litNeg]
  rw [this, cube_foldl_push c.literals hs]

/-- The loop of `Cube::sane` stays in range and terminates when the bound
fits inside the vector. -/
theorem saneLoop_isSome (lits : List Nat) :
    ∀ (rem i : Nat), i + rem + 1 ≤ lits.length →
      (saneLoop lits i rem).isSome := by
  intro rem
  induction rem with
  | zero => intro i _; simp [saneLoop]
  | succ rem ih =>
      intro i h
      have hi : i < lits.length := by omega
      have hi1 : i + 1 < lits.length := by omega
      have hA := List.get?_eq_get hi
      have hB := List.get?_eq_get hi1
      simp only [saneLoop, hA, hB]
      split_ifs with h1 h2
      · rfl
      · exact ih (i + 1) (by omega)
      · rfl

/-- Claim C10: `Cube::sane` is well-defined only on non-empty cubes.  On
the empty cube the `size_t` loop bound `literals.size() - 1` wraps around
and the first iteration indexes past the end of the vector (`none`);
under the precondition `size ≥ 1` (with the vector length a valid
`size_t` value) every access is in range and the loop is total. -/
theorem claim_C10_sane_needs_nonempty :
    Cube.saneChecked ⟨[]⟩ = none ∧
    ∀ c : Cube, 1 ≤ c.size → c.size < sizeTMod →
      (Cube.saneChecked c).isSome := by
  constructor
  · rfl
  · intro c h1 h2
    have hb : (c.literals.length + (sizeTMod - 1)) % sizeTMod
        = c.literals.length - 1 := by
      have hlen : 1 ≤ c.literals.length := h1
      have hlt : c.literals.length < sizeTMod := h2
      have hsplit : c.literals.length + (sizeTMod - 1)
          = (c.literals.length - 1) + sizeTMod := by omega
      rw [hsplit, Nat.add_mod_right]
      exact Nat.mod_eq_of_lt (by omega)
    rw [Cube.saneChecked, hb]
    exact saneLoop_isSome c.literals (c.literals.length - 1) 0 (by
      have hlen : 1 ≤ c.literals.length := h1
      omega)

/-- Witness for claim C10 at the concrete cube `{0, 3}`. -/
theorem claim_C10_witness : (Cube.saneChecked ⟨[0, 3]⟩).isSome :=
  claim_C10_sane_needs_nonempty.2 ⟨[0, 3]⟩ (by decide)
    (by norm_num [Cube.size, sizeTMod])

/-- Counterexample to claim C6 as stated: pushing an already-present
literal is a no-op, so the subsequent pop removes it and the cube is not
restored. -/
theorem claim_C6_counterexample :
    ¬ ((Cube.mk [0]).push 0).pop 0 = Cube.mk [0] := by decide

/-- Claim C6 (amended): `push(L); pop(L)` restores the cube provided `L`
was not already present; push of a present literal is a no-op; push
preserves the ascending-order invariant; and `Cube.inverted ∘ invert` is
the identity on cubes satisfying the representation invariant. -/
theorem claim_C6_push_pop_invert (c : Cube) (L : Nat) :
    (c.contains L = false → (c.push L).pop L = c) ∧
    (c.contains L = true → c.push L = c) ∧
    (List.Sorted (· < ·) c.literals →
      List.Sorted (· < ·) (c.push L).literals ∧
      Cube.inverted c.invert = c) :=
  ⟨cube_push_pop c L, cube_push_mem c L,
    fun hs => ⟨cube_push_sorted c L hs, cube_inverted_invert c hs⟩⟩

/-- Witness for claim C6 at the concrete cube `{2, 4}` and literal `0`. -/
theorem claim_C6_witness :
    ((Cube.mk [2, 4]).push 0).pop 0 = Cube.mk [2, 4] ∧
    List.Sorted (· < ·) ((Cube.mk [2, 4]).push 0).literals ∧
    Cube.inverted (Cube.mk [2, 4]).invert = Cube.mk [2, 4] := by
  have h := claim_C6_push_pop_invert (Cube.mk [2, 4]) 0
  have hs : List.Sorted (· < ·) (Cube.mk [2, 4]).literals := by
    simp [List.sorted_cons]
  exact ⟨h.1 (by decide), (h.2.2 hs).1, (h.2.2 hs).2⟩

/-! ### CubeIndex (src/cs/CubeIndex.h): a prefix trie of literal encodings -/

/-- A trie node: the `marks` set (cubes terminating here) and the
`children` map from literal encoding to child node. -/
inductive CI where
| node : List Nat → List (Nat × CI) → CI

/-- `unordered_set::insert`. -/
def insertMark (x : Nat) (m : List Nat) : List Nat :=
  if m.contains x then m else m ++ [x]

/-- `unordered_map::find` on the children map. -/
def lookupChild (x : Nat) : List (Nat × CI) → Option CI
| [] => none
| (k, c) :: rest => if k = x then some c else lookupChild x rest

/-- Store a child under key `x` (`operator[]` assignment). -/
def setChild (x : Nat) (c : CI) : List (Nat × CI) → List (Nat × CI)
| [] => [(x, c)]
| (k, c0) :: rest => if k = x then (k, c) :: rest else (k, c0) :: setChild x c rest

/-- `operator[]`: the existing child, or a freshly default-constructed
node. -/
def childOrNew (x : Nat) (ch : List (Nat × CI)) : CI :=
  (lookupChild x ch).getD (CI.node [] [])

/-- `CubeIndex::push` walking the remaining literals of the cube (the
`depth` recursion).  The empty case is the assertion violation
`depth < cube.size()`; no caller reaches it. -/
def CI.push : List Nat → CI → CI
| [], ci => ci
| [x], CI.node m ch => CI.node (insertMark x m) ch
| x :: y :: rest, CI.node m ch =>
    CI.node m (setChild x (CI.push (y :: rest) (childOrNew x ch)) ch)

/-- `CubeIndex::pop`: erase the terminal mark, default-constructing
intermediate children exactly as the source's `operator[]` does. -/
def CI.pop : List Nat → CI → CI
| [], ci => ci
| [x], CI.node m ch => CI.node (removeFirst x m) ch
| x :: y :: rest, CI.node m ch =>
    CI.node m (setChild x (CI.pop (y :: rest) (childOrNew x ch)) ch)

/-- `CubeIndex::contains`: walk without creating children. -/
def CI.contains : List Nat → CI → Bool
| [], _ => false
| [x], CI.node m _ => m.contains x
| x :: y :: rest, CI.node _ ch =>
    match lookupChild x ch with
    | none => false
    | some c => CI.contains (y :: rest) c

theorem lookupChild_setChild_self (x : Nat) (c : CI) (ch : List (Nat × CI)) :
    lookupChild x (setChild x c ch) = some c := by
  induction ch with
  | nil => simp [setChild, lookupChild]
  | cons kc rest ih =>
      obtain ⟨k, c0⟩ := kc
      by_cases h : k = x
      · simp [setChild, lookupChild, h]
      · simp [setChild, lookupChild, h, ih]

theorem lookupChild_setChild_ne (x z : Nat) (c : CI) (ch : List (Nat × CI))
    (h : z ≠ x) : lookupChild z (setChild x c ch) = lookupChild z ch := by
  induction ch with
  | nil => simp [setChild, lookupChild, show ¬ x = z by omega]
  | cons kc rest ih =>
      obtain ⟨k, c0⟩ := kc
      by_cases hk : k = x
      · subst hk
        simp [setChild, lookupChild, show ¬ k = z by omega]
      · simp [setChild, lookupChild, hk, ih]

theorem setChild_absorb (x : Nat) (c c' : CI) (ch : List (Nat × CI)) :
    setChild x c (setChild x c' ch) = setChild x c ch := by
  induction ch with
  | nil => simp [setChild]
  | cons kc rest ih =>
      obtain ⟨k, c0⟩ := kc
      by_cases hk : k = x
      · simp [setChild, hk]
      · simp [setChild, hk, ih]

theorem insertMark_contains (x : Nat) (m : List Nat) :
    (insertMark x m).contains x = true := by
  unfold insertMark
  by_cases h : m.contains x
  · rw [if_pos h]; exact h
  · rw [if_neg h]; simp

theorem insertMark_ne (x y : Nat) (m : List Nat) (h : y ≠ x) :
    (insertMark x m).contains y = m.contains y := by
  unfold insertMark
  by_cases hc : m.contains x
  · rw [if_pos hc]
  · rw [if_neg hc]; simp [h]

/-- The empty trie node contains no cube. -/
theorem CI.contains_empty (D : List Nat) :
    CI.contains D (CI.node [] []) = false := by
  match D with
  | [] => rfl
  | [x] => rfl
  | x :: y :: rest => simp [CI.contains, lookupChild]

theorem insertMark_idem (x : Nat) (m : List Nat) :
    insertMark x (insertMark x m) = insertMark x m := by
  conv_lhs => rw [insertMark]
  rw [if_pos (insertMark_contains x m)]

theorem mem_insertMark_self (x : Nat) (m : List Nat) :
    x ∈ insertMark x m := by
  simpa using insertMark_contains x m

theorem mem_insertMark_ne (x z : Nat) (m : List Nat) (h : z ≠ x) :
    z ∈ insertMark x m ↔ z ∈ m := by
  have := insertMark_ne x z m h
  constructor
  · intro hz
    have hb : (insertMark x m).contains z = true := by simpa using hz
    rw [this] at hb
    simpa using hb
  · intro hz
    have hb : m.contains z = true := by simpa using hz
    rw [← this] at hb
    simpa using hb

theorem childOrNew_setChild_self (x : Nat) (c : CI) (ch : List (Nat × CI)) :
    childOrNew x (setChild x c ch) = c := by
  simp [childOrNew, lookupChild_setChild_self]

/-- A pushed cube is contained. -/
theorem CI.push_contains : ∀ (C : List Nat), C ≠ [] → ∀ ci : CI,
    CI.contains C (CI.push C ci) = true
| [], h, _ => absurd rfl h
| [x], _, CI.node m ch => by
    simp [CI.push, CI.contains, mem_insertMark_self]
| x :: y :: rest, _, CI.node m ch => by
    simp only [CI.push, CI.contains, lookupChild_setChild_self]
    exact CI.push_contains (y :: rest) (by simp) (childOrNew x ch)

/-- Pushing a cube does not affect membership of any other cube: no prefix
or extension hits. -/
theorem CI.push_contains_ne : ∀ (C : List Nat) (ci : CI) (D : List Nat),
    D ≠ C → CI.contains D (CI.push C ci) = CI.contains D ci
| [], ci, D, _ => by simp [CI.push]
| [x], CI.node m ch, D, h => by
    match D with
    | [] => simp [CI.contains]
    | [z] =>
        have hz : z ≠ x := fun hh => h (by simp [hh])
        simp [CI.push, CI.contains, mem_insertMark_ne x z m hz]
    | z :: d :: Ds => simp [CI.push, CI.contains]
| x :: y :: rest, CI.node m ch, D, h => by
    match D with
    | [] => simp [CI.contains]
    | [z] => simp [CI.push, CI.contains]
    | z :: d :: Ds =>
        by_cases hz : z = x
        · subst hz
          have hne : (d :: Ds) ≠ (y :: rest) := by
            intro hh
            exact h (by rw [hh])
          simp only [CI.push, CI.contains, lookupChild_setChild_self]
          rw [CI.push_contains_ne (y :: rest) (childOrNew z ch) (d :: Ds) hne]
          cases hl : lookupChild z ch with
          | some c => simp [childOrNew, hl]
          | none => simp [childOrNew, hl, CI.contains_empty]
        · simp only [CI.push, CI.contains,
            lookupChild_setChild_ne x z _ ch hz]

/-- `push` is idempotent (structurally). -/
theorem CI.push_push : ∀ (C : List Nat) (ci : CI),
    CI.push C (CI.push C ci) = CI.push C ci
| [], _ => rfl
| [x], CI.node m ch => by simp [CI.push, insertMark_idem]
| x :: y :: rest, CI.node m ch => by
    simp only [CI.push, childOrNew_setChild_self]
    rw [CI.push_push (y :: rest) (childOrNew x ch), setChild_absorb]

/-- `push` of a fresh cube followed by `pop` restores the trie
extensionally (the created empty child nodes remain, so only the
membership function is restored). -/
theorem CI.push_pop : ∀ (C : List Nat) (ci : CI),
    CI.contains C ci = false → ∀ D,
    CI.contains D (CI.pop C (CI.push C ci)) = CI.contains D ci
| [], ci, _, D => by simp [CI.push, CI.pop]
| [x], CI.node m ch, h, D => by
    have hx : x ∉ m := by
      have : m.contains x = false := by simpa [CI.contains] using h
      simpa using this
    have hrm : removeFirst x (insertMark x m) = m := by
      rw [insertMark, if_neg (by simpa using hx)]
      simpa using removeFirst_append x m [] hx
    simp [CI.push, CI.pop, hrm]
| x :: y :: rest, CI.node m ch, h, D => by
    have hsub : CI.contains (y :: rest) (childOrNew x ch) = false := by
      cases hl : lookupChild x ch with
      | some c =>
          have : CI.contains (y :: rest) c = false := by
            simpa [CI.contains, hl] using h
          simpa [childOrNew, hl] using this
      | none => simp [childOrNew, hl, CI.contains_empty]
    match D with
    | [] => simp [CI.contains]
    | [z] => simp [CI.push, CI.pop, CI.contains, childOrNew_setChild_self,
        setChild_absorb]
    | z :: d :: Ds =>
        by_cases hz : z = x
        · subst hz
          simp only [CI.push, CI.pop, CI.contains, childOrNew_setChild_self,
            setChild_absorb, lookupChild_setChild_self]
          rw [CI.push_pop (y :: rest) (childOrNew z ch) hsub (d :: Ds)]
          cases hl : lookupChild z ch with
          | some c => simp [childOrNew, hl]
          | none => simp [childOrNew, hl, CI.contains_empty]
        · simp only [CI.push, CI.pop, CI.contains, childOrNew_setChild_self,
            setChild_absorb, lookupChild_setChild_ne x z _ ch hz]

/-- Counterexample to claim C8 as stated: if the cube is already present,
`push` is a no-op and the subsequent `pop` deletes it, so the index is not
returned to its prior state. -/
theorem claim_C8_counterexample :
    ¬ (CI.contains [0] (CI.pop [0] (CI.push [0] (CI.push [0] (CI.node [] []))))
      = CI.contains [0] (CI.push [0] (CI.node [] []))) := by decide

/-- Claim C8 (amended): `CubeIndex` behaves as an extensional set of
non-empty cubes: a pushed cube is contained, other cubes (prefixes and
extensions included) are unaffected, `push(C); pop(C)` restores the
membership function provided `C` was not already present, and a double
`push` equals a single one. -/
theorem claim_C8_cubeindex_set (ci : CI) (C D : List Nat) (hC : C ≠ []) :
    (CI.contains C (CI.push C ci) = true) ∧
    (D ≠ C → CI.contains D (CI.push C ci) = CI.contains D ci) ∧
    (CI.contains C ci = false →
      CI.contains D (CI.pop C (CI.push C ci)) = CI.contains D ci) ∧
    (CI.push C (CI.push C ci) = CI.push C ci) :=
  ⟨CI.push_contains C hC ci,
    fun h => CI.push_contains_ne C ci D h,
    fun h => CI.push_pop C ci h D,
    CI.push_push C ci⟩

/-- Witness for claim C8: scenario (d) of the spec with `L0, L1, L2, L3`
encoded as `0, 2, 4, 6`. -/
theorem claim_C8_witness :
    CI.contains [0, 2, 4] (CI.push [0, 2, 4] (CI.node [] [])) = true ∧
    CI.contains [0, 2] (CI.push [0, 2, 4] (CI.node [] []))
      = CI.contains [0, 2] (CI.node [] []) ∧
    CI.contains [0, 2, 6] (CI.push [0, 2, 4] (CI.node [] []))
      = CI.contains [0, 2, 6] (CI.node [] []) ∧
    CI.contains [0, 2, 4]
      (CI.pop [0, 2, 4] (CI.push [0, 2, 4] (CI.node [] [])))
      = CI.contains [0, 2, 4] (CI.node [] []) := by
  refine ⟨(claim_C8_cubeindex_set (CI.node [] []) [0, 2, 4] [0, 2]
    (by decide)).1, ?_, ?_, ?_⟩
  · exact (claim_C8_cubeindex_set (CI.node [] []) [0, 2, 4] [0, 2]
      (by decide)).2.1 (by decide)
  · exact (claim_C8_cubeindex_set (CI.node [] []) [0, 2, 4] [0, 2, 6]
      (by decide)).2.1 (by decide)
  · exact (claim_C8_cubeindex_set (CI.node [] []) [0, 2, 4] [0, 2, 4]
      (by decide)).2.2.1 (by decide)

/-! ### CubeQueue (src/cs/CubeQueue.{h,cc})

`double` scores are modelled by `ℚ`; `std::map<double, vector<Cube>>` by
an association list kept sorted by ascending key; `std::unordered_map` by
an association list in insertion order. -/

/-- Lookup in the `scorewise` ordered map. -/
def mapGet (s : ℚ) : List (ℚ × List Cube) → Option (List Cube)
| [] => none
| (k, v) :: rest => if k = s then some v else mapGet s rest

/-- `scorewise[score].push_back(cube)`: create the bucket if missing
(keeping keys sorted, as `std::map` does), else append to it. -/
def swInsert (s : ℚ) (c : Cube) : List (ℚ × List Cube) → List (ℚ × List Cube)
| [] => [(s, [c])]
| (k, v) :: rest =>
    if s < k then (s, [c]) :: (k, v) :: rest
    else if s = k then (k, v ++ [c]) :: rest
    else (k, v) :: swInsert s c rest

/-- `scorewise.erase(score)`. -/
def swErase (s : ℚ) : List (ℚ × List Cube) → List (ℚ × List Cube)
| [] => []
| (k, v) :: rest => if k = s then rest else (k, v) :: swErase s rest

/-- Replace the bucket stored under an existing key. -/
def swSet (s : ℚ) (vec : List Cube) : List (ℚ × List Cube) → List (ℚ × List Cube)
| [] => []
| (k, v) :: rest => if k = s then (k, vec) :: rest else (k, v) :: swSet s vec rest

/-- `std::find` + `erase` on a bucket: drop the first occurrence. -/
def removeFirstCube (c : Cube) : List Cube → List Cube
| [] => []
| x :: xs => if x = c then xs else x :: removeFirstCube c xs

/-- Lookup in the `implicants` hash map. -/
def imGet (c : Cube) : List (Cube × ℚ × List Int) → Option (ℚ × List Int)
| [] => none
| (k, v) :: rest => if k = c then some v else imGet c rest

/-- `implicants[cube] = v`: overwrite or append. -/
def imSet (c : Cube) (v : ℚ × List Int) :
    List (Cube × ℚ × List Int) → List (Cube × ℚ × List Int)
| [] => [(c, v)]
| (k, w) :: rest => if k = c then (k, v) :: rest else (k, w) :: imSet c v rest

/-- `implicants.erase(cube)`. -/
def imErase (c : Cube) : List (Cube × ℚ × List Int) → List (Cube × ℚ × List Int)
| [] => []
| (k, w) :: rest => if k = c then rest else (k, w) :: imErase c rest

/-- The `CubeQueue` state. -/
structure CubeQueue where
  budget : Nat
  sumScore : ℚ
  numSeen : ℚ
  scorewise : List (ℚ × List Cube)
  implicants : List (Cube × ℚ × List Int)
deriving Repr

/-- `CubeQueue::contains`. -/
def CubeQueue.contains (q : CubeQueue) (c : Cube) : Bool :=
  (imGet c q.implicants).isSome

/-- `CubeQueue::size`. -/
def CubeQueue.size (q : CubeQueue) : Nat := q.implicants.length

/-- `CubeQueue::empty`. -/
def CubeQueue.isEmptyQ (q : CubeQueue) : Bool := q.implicants.length == 0

/-- `CubeQueue::peekWorst`: the front of the lowest-score bucket.  The
source dereferences `scorewise.begin()`; `none` models the state (empty
map, or an empty bucket) in which that is undefined behaviour. -/
def CubeQueue.peekWorst (q : CubeQueue) : Option Cube :=
  match q.scorewise with
  | [] => none
  | (_, v) :: _ => v.head?

/-- `CubeQueue::pop`.  The source asserts `contains(cube)`; popping an
absent cube is modelled as a no-op. -/
def CubeQueue.pop (q : CubeQueue) (c : Cube) : CubeQueue :=
  match imGet c q.implicants with
  | none => q
  | some (score, _) =>
      let sw := match mapGet score q.scorewise with
        | none => q.scorewise
        | some vec =>
            if vec.length = 1 then swErase score q.scorewise
            else swSet score (removeFirstCube c vec) q.scorewise
      { q with scorewise := sw, implicants := imErase c q.implicants }

/-- `CubeQueue::addParentInd`: append the persistent id unless already
recorded.  (`implicants.at` throws on an absent cube; no-op here, callers
guard with `contains`.) -/
def CubeQueue.addParentInd (q : CubeQueue) (c : Cube) (i : Int) : CubeQueue :=
  match imGet c q.implicants with
  | none => q
  | some (s, v) =>
      if v.contains i then q
      else { q with implicants := imSet c (s, v ++ [i]) q.implicants }

/-- `CubeQueue::getParentInds`. -/
def CubeQueue.getParentInds (q : CubeQueue) (c : Cube) : List Int :=
  match imGet c q.implicants with
  | none => []
  | some (_, v) => v

/-- `CubeQueue::push`: merge parent ids when the cube is present;
otherwise evict `peekWorst()` whenever `implicants.size() + 1 >= budget`,
then insert and update the rolling-mean counters. -/
def CubeQueue.push (q : CubeQueue) (c : Cube) (score : ℚ) (i : Int) : CubeQueue :=
  if q.contains c then q.addParentInd c i
  else
    let q1 := if q.implicants.length + 1 ≥ q.budget then
        match q.peekWorst with
        | some w => q.pop w
        | none => q
      else q
    { q1 with
      implicants := imSet c (score, [i]) q1.implicants,
      scorewise := swInsert score c q1.scorewise,
      sumScore := q1.sumScore + score,
      numSeen := q1.numSeen + 1 }

/-- `CubeQueue::bestScore`: `0` when empty, else the highest key. -/
def CubeQueue.bestScore (q : CubeQueue) : ℚ :=
  if q.isEmptyQ then 0
  else match q.scorewise.getLast? with
  | some (k, _) => k
  | none => 0

/-- `CubeQueue::meanScore` (`sumScore / numSeen`; the `0/0` case is `0` in
`ℚ` where the source produces NaN). -/
def CubeQueue.meanScore (q : CubeQueue) : ℚ := q.sumScore / q.numSeen

/-- `CubeQueue::peekBest`: random-index tie-break in the top bucket. -/
def CubeQueue.peekBest (q : CubeQueue) (r : Nat) : Option Cube :=
  match q.scorewise.getLast? with
  | none => none
  | some (_, v) =>
      if v.length = 1 then v.head?
      else v.get? (r % v.length)

theorem imGet_append_of_some (d : Cube) (w : ℚ × List Int)
    (e : Cube × ℚ × List Int) :
    ∀ l : List (Cube × ℚ × List Int), imGet d l = some w →
      imGet d (l ++ [e]) = some w
| [], h => by simp [imGet] at h
| (k, v) :: rest, h => by
    by_cases hk : k = d
    · simpa [imGet, hk] using h
    · rw [imGet, if_neg hk] at h
      simpa [imGet, hk] using imGet_append_of_some d w e rest h

theorem imSet_absent (c : Cube) (v : ℚ × List Int) :
    ∀ l : List (Cube × ℚ × List Int), imGet c l = none →
      imSet c v l = l ++ [(c, v)]
| [], _ => rfl
| (k, w) :: rest, h => by
    have hk : ¬ k = c := by
      intro hh
      rw [imGet, if_pos hh] at h
      exact Option.noConfusion h
    rw [imGet, if_neg hk] at h
    simp [imSet, hk, imSet_absent c v rest h]

/-- The concrete eviction scenario of the spec: budget 2, pushes of cubes
`A`, `B`, `C` with scores `5`, `1`, `3`. -/
def cubeA : Cube := ⟨[0]⟩

def cubeB : Cube := ⟨[2]⟩

def cubeC : Cube := ⟨[4]⟩

def cqScenario : CubeQueue :=
  (((CubeQueue.mk 2 0 0 [] []).push cubeA 5 0).push cubeB 1 1).push cubeC 3 2

/-- Evaluating the scenario on the code: each push from size 1 evicts
first (the condition is `size + 1 >= budget`), so the queue ends with only
`C`; the rolling mean still sees all three insertions. -/
theorem cqScenario_eval :
    cqScenario.size = 1 ∧ cqScenario.contains cubeA = false ∧
    cqScenario.contains cubeB = false ∧ cqScenario.contains cubeC = true ∧
    cqScenario.bestScore = 3 ∧ cqScenario.meanScore = 3 := by
  norm_num [cqScenario, cubeA, cubeB, cubeC, CubeQueue.push,
    CubeQueue.contains, CubeQueue.size, CubeQueue.isEmptyQ,
    CubeQueue.peekWorst, CubeQueue.pop, CubeQueue.addParentInd,
    CubeQueue.bestScore, CubeQueue.meanScore, imGet, imSet, imErase,
    mapGet, swInsert, swErase, swSet, removeFirstCube]

/-- Counterexample to claim C1 as stated: with budget 2 the third push
leaves size 1 (not 2), the cube `A` has been evicted as well, and the best
score is 3 (not 5). -/
theorem claim_C1_counterexample :
    ¬ (cqScenario.size = 2 ∧ cqScenario.contains cubeB = false ∧
       cqScenario.contains cubeA = true ∧ cqScenario.bestScore = 5 ∧
       cqScenario.meanScore = 3) := by
  intro h
  have := cqScenario_eval.1
  omega

/-- Claim C1 (amended): `push` on a fresh cube evicts the current worst
cube whenever the insertion would make the size reach or exceed the
budget (`implicants.size() + 1 >= budget`, so at most `budget - 1` cubes
are ever held); below that threshold it inserts without evicting.  In the
budget-2 scenario the queue ends at size 1 holding only `C`, with
`bestScore = 3` and `meanScore = 3`. -/
theorem claim_C1_cubequeue_eviction (q : CubeQueue) (c : Cube) (s : ℚ) (i : Int) :
    (q.contains c = false → q.implicants.length + 1 < q.budget →
      (q.push c s i).size = q.size + 1 ∧
      ∀ d, q.contains d = true → (q.push c s i).contains d = true) ∧
    (cqScenario.size = 1 ∧ cqScenario.contains cubeA = false ∧
     cqScenario.contains cubeB = false ∧ cqScenario.contains cubeC = true ∧
     cqScenario.bestScore = 3 ∧ cqScenario.meanScore = 3) := by
  refine ⟨?_, cqScenario_eval⟩
  intro hc hlt
  have hget : imGet c q.implicants = none := by
    have := hc
    rw [CubeQueue.contains] at this
    cases h : imGet c q.implicants with
    | none => rfl
    | some w => rw [h] at this; simp at this
  have hnoev : ¬ (q.implicants.length + 1 ≥ q.budget) := by omega
  constructor
  · rw [CubeQueue.push, if_neg (by simp [hc]), if_neg hnoev]
    simp [CubeQueue.size, imSet_absent c (s, [i]) q.implicants hget]
  · intro d hd
    rw [CubeQueue.contains] at hd
    cases h : imGet d q.implicants with
    | none => rw [h] at hd; simp at hd
    | some w =>
        rw [CubeQueue.push, if_neg (by simp [hc]), if_neg hnoev]
        rw [CubeQueue.contains]
        simp only [imSet_absent c (s, [i]) q.implicants hget]
        rw [imGet_append_of_some d w _ q.implicants h]
        rfl

/-- Witness for claim C1: a push below the eviction threshold grows the
queue by one. -/
theorem claim_C1_witness :
    ((CubeQueue.mk 3 0 0 [] []).push cubeA 5 0).size
      = (CubeQueue.mk 3 0 0 [] []).size + 1 :=
  ((claim_C1_cubequeue_eviction (CubeQueue.mk 3 0 0 [] []) cubeA 5 0).1
    (by decide) (by decide)).1

/-! ### Bimap (src/cs/Bimap.h)

Transient slots are `Nat` vector indices, stored persistent ids are `Int`
(`-1` marks a free slot).  `ptt` is an association list keyed by `Int`
because `flip_buffer`'s rebuild inserts the key `-1` for free slots. -/

/-- `l.getD k (-1)`: reading a `vector<int>` slot, `-1` beyond the end. -/
def atD (l : List Int) (k : Nat) : Int := l.getD k (-1)

/-- `if (v.size() <= i) v.resize(i + 1, -1)`. -/
def ensureSize (l : List Int) (i : Nat) : List Int :=
  if l.length ≤ i then l ++ List.replicate (i + 1 - l.length) (-1) else l

/-- Lookup in the `ptt` hash map. -/
def pttGet (j : Int) : List (Int × Nat) → Option Nat
| [] => none
| (k, v) :: rest => if k = j then some v else pttGet j rest

/-- `ptt[j] = i`: overwrite or insert. -/
def pttSet (j : Int) (i : Nat) : List (Int × Nat) → List (Int × Nat)
| [] => [(j, i)]
| (k, v) :: rest => if k = j then (k, i) :: rest else (k, v) :: pttSet j i rest

/-- `ptt.erase(j)`. -/
def pttErase (j : Int) : List (Int × Nat) → List (Int × Nat)
| [] => []
| (k, v) :: rest => if k = j then rest else (k, v) :: pttErase j rest

/-- The `Bimap` state. -/
structure Bimap where
  next_free_index : Int
  ptt : List (Int × Nat)
  ttp : List Int
  ttp_next : List Int
deriving Repr, DecidableEq

/-- A freshly constructed `Bimap`. -/
def Bimap.init : Bimap := ⟨0, [], [], []⟩

/-- `Bimap::add`: mint `j = next_free_index++`, record `ptt[j] = i` and
`ttp[i] = j` (resizing with `-1` fill). -/
def Bimap.add (b : Bimap) (i : Nat) : Bimap × Int :=
  let j := b.next_free_index
  ({ b with
      next_free_index := j + 1,
      ptt := pttSet j i b.ptt,
      ttp := (ensureSize b.ttp i).set i j }, j)

/-- `Bimap::drop`: erase the reverse entry, free the slot. -/
def Bimap.drop (b : Bimap) (i : Nat) : Bimap :=
  { b with
      ptt := pttErase (atD b.ttp i) b.ptt,
      ttp := b.ttp.set i (-1) }

/-- `Bimap::swap`: exchange the persistent ids of two slots, updating both
directions (`ptt[ir] = j; ptt[jr] = i; ttp[i] = jr; ttp[j] = ir`). -/
def Bimap.swap (b : Bimap) (i j : Nat) : Bimap :=
  let ir := atD b.ttp i
  let jr := atD b.ttp j
  { b with
      ptt := pttSet jr i (pttSet ir j b.ptt),
      ttp := (b.ttp.set i jr).set j ir }

/-- `Bimap::will_move`: record `ttp_next[j] = ttp[i]`. -/
def Bimap.will_move (b : Bimap) (i j : Nat) : Bimap :=
  { b with ttp_next := (ensureSize b.ttp_next j).set j (atD b.ttp i) }

/-- The rebuild loop of `Bimap::flip_buffer`:
`for i in 0..ttp.size(): ptt[ttp[i]] = i` (later assignments win). -/
def rebuildAux : List Int → Nat → List (Int × Nat) → List (Int × Nat)
| [], _, m => m
| v :: rest, idx, m => rebuildAux rest (idx + 1) (pttSet v idx m)

/-- `Bimap::flip_buffer`: swap in the pending buffer, clear it, rebuild
`ptt` from scratch. -/
def Bimap.flip_buffer (b : Bimap) : Bimap :=
  { b with
      ttp := b.ttp_next,
      ttp_next := [],
      ptt := rebuildAux b.ttp_next 0 [] }

/-- `Bimap::fw`. -/
def Bimap.fw (b : Bimap) (j : Int) : Int :=
  match pttGet j b.ptt with
  | none => -1
  | some i => (i : Int)

/-- `Bimap::bw`. -/
def Bimap.bw (b : Bimap) (i : Nat) : Int :=
  if b.ttp.length ≤ i then -1 else atD b.ttp i

/-- The `Bimap` operations, for reasoning about operation sequences. -/
inductive BOp where
| add : Nat → BOp
| drop : Nat → BOp
| swap : Nat → Nat → BOp
| willMove : Nat → Nat → BOp
| flip : BOp
deriving DecidableEq, Repr

/-- Apply one operation (the minted id of `add` is discarded here). -/
def applyOp (b : Bimap) : BOp → Bimap
| .add i => (b.add i).1
| .drop i => b.drop i
| .swap i j => b.swap i j
| .willMove i j => b.will_move i j
| .flip => b.flip_buffer

/-- Apply a sequence of operations. -/
def applyTrace (b : Bimap) (ops : List BOp) : Bimap :=
  ops.foldl applyOp b

/-- The preconditions stated in the source (its assertions): `add` needs a
free slot, `drop`/`swap`/`will_move` need live slots, `flip_buffer` has
none. -/
def opPre (b : Bimap) : BOp → Prop
| .add i => b.ttp.length ≤ i ∨ atD b.ttp i = -1
| .drop i => i < b.ttp.length ∧ 0 ≤ atD b.ttp i
| .swap i j => i < b.ttp.length ∧ j < b.ttp.length ∧
    0 ≤ atD b.ttp i ∧ 0 ≤ atD b.ttp j
| .willMove i _ => i < b.ttp.length ∧ 0 ≤ atD b.ttp i
| .flip => True

/-- The amended precondition: in addition, `will_move` may not record a
persistent id that is already pending in the buffer. -/
def opPreA (b : Bimap) : BOp → Prop
| .willMove i _ => i < b.ttp.length ∧ 0 ≤ atD b.ttp i ∧
    b.ttp_next.contains (atD b.ttp i) = false
| op => opPre b op

/-- Every operation of a trace satisfies the stated precondition at the
state it runs in. -/
def TracePre (b : Bimap) : List BOp → Prop
| [] => True
| op :: ops => opPre b op ∧ TracePre (applyOp b op) ops

/-- Every operation of a trace satisfies the amended precondition. -/
def TracePreA (b : Bimap) : List BOp → Prop
| [] => True
| op :: ops => opPreA b op ∧ TracePreA (applyOp b op) ops

instance decOpPre (b : Bimap) : (op : BOp) → Decidable (opPre b op)
| .add _ => inferInstanceAs (Decidable (_ ∨ _))
| .drop _ => inferInstanceAs (Decidable (_ ∧ _))
| .swap _ _ => inferInstanceAs (Decidable (_ ∧ _))
| .willMove _ _ => inferInstanceAs (Decidable (_ ∧ _))
| .flip => inferInstanceAs (Decidable True)

instance decOpPreA (b : Bimap) : (op : BOp) → Decidable (opPreA b op)
| .add _ => inferInstanceAs (Decidable (_ ∨ _))
| .drop _ => inferInstanceAs (Decidable (_ ∧ _))
| .swap _ _ => inferInstanceAs (Decidable (_ ∧ _))
| .willMove _ _ => inferInstanceAs (Decidable (_ ∧ _))
| .flip => inferInstanceAs (Decidable True)

instance decTracePre : (ops : List BOp) → (b : Bimap) → Decidable (TracePre b ops)
| [], _ => inferInstanceAs (Decidable True)
| op :: ops, b =>
    haveI := decTracePre ops (applyOp b op)
    inferInstanceAs (Decidable (_ ∧ _))

instance decTracePreA : (ops : List BOp) → (b : Bimap) → Decidable (TracePreA b ops)
| [], _ => inferInstanceAs (Decidable True)
| op :: ops, b =>
    haveI := decTracePreA ops (applyOp b op)
    inferInstanceAs (Decidable (_ ∧ _))

/-! ### Bimap invariant lemmas -/

theorem atD_set_self (l : List Int) (k : Nat) (v : Int) (h : k < l.length) :
    atD (l.set k v) k = v := by
  simp [atD, List.getD_eq_getElem?_getD, List.getElem?_set_self, h]

theorem atD_set_ne (l : List Int) (k k' : Nat) (v : Int) (h : k' ≠ k) :
    atD (l.set k v) k' = atD l k' := by
  rw [atD, List.getD_eq_getElem?_getD, List.getElem?_set,
    if_neg (fun hh => h hh.symm), ← List.getD_eq_getElem?_getD, atD]

theorem atD_out (l : List Int) (k : Nat) (h : l.length ≤ k) :
    atD l k = -1 := by
  simp [atD, List.getD_eq_getElem?_getD, List.getElem?_eq_none h]

theorem atD_append_replicate (l : List Int) (n : Nat) (k : Nat) :
    atD (l ++ List.replicate n (-1)) k = atD l k := by
  rcases Nat.lt_or_ge k l.length with h | h
  · simp [atD, List.getD_eq_getElem?_getD, List.getElem?_append, h]
  · rcases Nat.lt_or_ge k (l.length + n) with h2 | h2
    · rw [atD, List.getD_eq_getElem?_getD, List.getElem?_append_right h,
        List.getElem?_replicate]
      simp [atD, List.getD_eq_getElem?_getD, List.getElem?_eq_none h,
        Nat.sub_lt_left_of_lt_add h h2]
    · rw [atD, List.getD_eq_getElem?_getD,
        List.getElem?_eq_none (by simp; omega), atD,
        List.getD_eq_getElem?_getD, List.getElem?_eq_none h]

theorem atD_ensureSize (l : List Int) (i : Nat) (k : Nat) :
    atD (ensureSize l i) k = atD l k := by
  rw [ensureSize]
  split
  · exact atD_append_replicate l _ k
  · rfl

theorem ensureSize_length (l : List Int) (i : Nat) :
    (ensureSize l i).length = max l.length (i + 1) := by
  rw [ensureSize]
  split
  · simp; omega
  · simp; omega

theorem atD_mem (l : List Int) (k : Nat) (h : k < l.length) :
    atD l k ∈ l := by
  rw [atD, List.getD_eq_getElem?_getD, List.getElem?_eq_getElem h]
  exact List.getElem_mem h

theorem pttGet_set_self (j : Int) (i : Nat) (m : List (Int × Nat)) :
    pttGet j (pttSet j i m) = some i := by
  induction m with
  | nil => simp [pttSet, pttGet]
  | cons kv rest ih =>
      obtain ⟨k, v⟩ := kv
      by_cases hk : k = j
      · simp [pttSet, pttGet, hk]
      · simp [pttSet, pttGet, hk, ih]

theorem pttGet_set_ne (j j' : Int) (i : Nat) (m : List (Int × Nat))
    (h : j' ≠ j) : pttGet j' (pttSet j i m) = pttGet j' m := by
  induction m with
  | nil =>
      have hne : ¬ (j = j') := fun hh => h hh.symm
      simp [pttSet, pttGet, hne]
  | cons kv rest ih =>
      obtain ⟨k, v⟩ := kv
      by_cases hk : k = j
      · subst hk
        have hne : ¬ (k = j') := fun hh => h hh.symm
        rw [pttSet, if_pos rfl, pttGet, if_neg hne, pttGet, if_neg hne]
      · rw [pttSet, if_neg hk, pttGet, pttGet]
        by_cases hk2 : k = j'
        · rw [if_pos hk2, if_pos hk2]
        · rw [if_neg hk2, if_neg hk2]
          exact ih

theorem pttGet_erase_ne (j j' : Int) (m : List (Int × Nat)) (h : j' ≠ j) :
    pttGet j' (pttErase j m) = pttGet j' m := by
  induction m with
  | nil => rfl
  | cons kv rest ih =>
      obtain ⟨k, v⟩ := kv
      by_cases hk : k = j
      · subst hk
        have hne : ¬ (k = j') := fun hh => h hh.symm
        rw [pttErase, if_pos rfl, pttGet, if_neg hne]
      · rw [pttErase, if_neg hk, pttGet, pttGet]
        by_cases hk2 : k = j'
        · rw [if_pos hk2, if_pos hk2]
        · rw [if_neg hk2, if_neg hk2]
          exact ih

/-- Keys of the association list. -/
def pttKeys (m : List (Int × Nat)) : List Int := m.map Prod.fst

theorem pttKeys_cons (k : Int) (v : Nat) (rest : List (Int × Nat)) :
    pttKeys ((k, v) :: rest) = k :: pttKeys rest := rfl

theorem pttGet_mem_keys (j : Int) (i : Nat) (m : List (Int × Nat))
    (h : pttGet j m = some i) : j ∈ pttKeys m := by
  induction m with
  | nil => simp [pttGet] at h
  | cons kv rest ih =>
      obtain ⟨k, v⟩ := kv
      rw [pttKeys_cons]
      by_cases hk : k = j
      · rw [hk]
        exact List.mem_cons_self j (pttKeys rest)
      · rw [pttGet, if_neg hk] at h
        exact List.mem_cons_of_mem k (ih h)

theorem pttGet_erase_self (j : Int) (m : List (Int × Nat))
    (hnd : (pttKeys m).Nodup) : pttGet j (pttErase j m) = none := by
  induction m with
  | nil => rfl
  | cons kv rest ih =>
      obtain ⟨k, v⟩ := kv
      rw [pttKeys_cons] at hnd
      have h1 : k ∉ pttKeys rest := (List.nodup_cons.mp hnd).1
      have h2 : (pttKeys rest).Nodup := (List.nodup_cons.mp hnd).2
      by_cases hk : k = j
      · subst hk
        rw [pttErase, if_pos rfl]
        cases hg : pttGet k rest with
        | none => rfl
        | some w => exact absurd (pttGet_mem_keys k w rest hg) h1
      · rw [pttErase, if_neg hk, pttGet, if_neg hk]
        exact ih h2

theorem pttKeys_set_sub (j : Int) (i : Nat) (m : List (Int × Nat)) :
    pttKeys (pttSet j i m) ⊆ j :: pttKeys m := by
  induction m with
  | nil =>
      rw [pttSet]
      intro a ha
      simpa [pttKeys] using ha
  | cons kv rest ih =>
      obtain ⟨k, v⟩ := kv
      by_cases hk : k = j
      · subst hk
        rw [pttSet, if_pos rfl, pttKeys_cons, pttKeys_cons]
        intro a ha
        exact List.mem_cons_of_mem k ha
      · rw [pttSet, if_neg hk, pttKeys_cons, pttKeys_cons]
        intro a ha
        rcases List.mem_cons.mp ha with ha | ha
        · simp [ha]
        · rcases List.mem_cons.mp (ih ha) with hb | hb
          · simp [hb]
          · exact List.mem_cons_of_mem j (List.mem_cons_of_mem k hb)

theorem pttKeys_set_nodup (j : Int) (i : Nat) (m : List (Int × Nat))
    (hnd : (pttKeys m).Nodup) : (pttKeys (pttSet j i m)).Nodup := by
  induction m with
  | nil => simp [pttSet, pttKeys]
  | cons kv rest ih =>
      obtain ⟨k, v⟩ := kv
      rw [pttKeys_cons] at hnd
      have h1 : k ∉ pttKeys rest := (List.nodup_cons.mp hnd).1
      have h2 : (pttKeys rest).Nodup := (List.nodup_cons.mp hnd).2
      by_cases hk : k = j
      · subst hk
        rw [pttSet, if_pos rfl, pttKeys_cons]
        exact List.nodup_cons.mpr ⟨h1, h2⟩
      · rw [pttSet, if_neg hk, pttKeys_cons]
        refine List.nodup_cons.mpr ⟨?_, ih h2⟩
        intro hm
        rcases List.mem_cons.mp (pttKeys_set_sub j i rest hm) with hh | hh
        · exact hk hh
        · exact h1 hh

theorem pttKeys_erase_sub (j : Int) (m : List (Int × Nat)) :
    pttKeys (pttErase j m) ⊆ pttKeys m := by
  induction m with
  | nil => simp [pttErase]
  | cons kv rest ih =>
      obtain ⟨k, v⟩ := kv
      by_cases hk : k = j
      · rw [pttErase, if_pos hk, pttKeys_cons]
        exact fun a ha => List.mem_cons_of_mem k ha
      · rw [pttErase, if_neg hk, pttKeys_cons, pttKeys_cons]
        intro a ha
        rcases List.mem_cons.mp ha with ha | ha
        · simp [ha]
        · exact List.mem_cons_of_mem k (ih ha)

theorem pttKeys_erase_nodup (j : Int) (m : List (Int × Nat))
    (hnd : (pttKeys m).Nodup) : (pttKeys (pttErase j m)).Nodup := by
  induction m with
  | nil => simp [pttErase, pttKeys]
  | cons kv rest ih =>
      obtain ⟨k, v⟩ := kv
      rw [pttKeys_cons] at hnd
      have h1 : k ∉ pttKeys rest := (List.nodup_cons.mp hnd).1
      have h2 : (pttKeys rest).Nodup := (List.nodup_cons.mp hnd).2
      by_cases hk : k = j
      · rw [pttErase, if_pos hk]
        exact h2
      · rw [pttErase, if_neg hk, pttKeys_cons]
        refine List.nodup_cons.mpr ⟨?_, ih h2⟩
        exact fun hm => h1 (pttKeys_erase_sub j rest hm)

theorem atD_cons_succ (v : Int) (rest : List Int) (k : Nat) :
    atD (v :: rest) (k + 1) = atD rest k := by
  simp [atD]

theorem atD_cons_zero (v : Int) (rest : List Int) :
    atD (v :: rest) 0 = v := by
  simp [atD]

/-- `flip_buffer`'s rebuild never touches a key that does not occur among
the new slot values. -/
theorem rebuildAux_no_occ (q : Int) :
    ∀ (X : List Int) (idx : Nat) (m : List (Int × Nat)),
      (∀ k : Nat, k < X.length → atD X k ≠ q) →
      pttGet q (rebuildAux X idx m) = pttGet q m
| [], _, _, _ => rfl
| v :: rest, idx, m, h => by
    have hv : v ≠ q := by
      have := h 0 (by simp)
      simpa [atD_cons_zero] using this
    rw [rebuildAux]
    rw [rebuildAux_no_occ q rest (idx + 1) (pttSet v idx m) (fun k hk => by
      have := h (k + 1) (by simpa using Nat.succ_lt_succ hk)
      simpa [atD_cons_succ] using this)]
    exact pttGet_set_ne v q idx m (fun hh => hv hh.symm)

/-- When a key occurs at a unique position, the rebuild maps it there. -/
theorem rebuildAux_unique_occ (q : Int) :
    ∀ (X : List Int) (idx : Nat) (m : List (Int × Nat)) (k : Nat),
      k < X.length → atD X k = q →
      (∀ k2 : Nat, k2 < X.length → atD X k2 = q → k2 = k) →
      pttGet q (rebuildAux X idx m) = some (idx + k)
| [], _, _, k, hk, _, _ => absurd hk (by simp)
| v :: rest, idx, m, k, hk, hq, huni => by
    rw [rebuildAux]
    cases k with
    | zero =>
        have hv : v = q := by simpa [atD_cons_zero] using hq
        have hno : ∀ k2 : Nat, k2 < rest.length → atD rest k2 ≠ q := by
          intro k2 hk2 hq2
          have := huni (k2 + 1) (by simpa using Nat.succ_lt_succ hk2)
            (by simpa [atD_cons_succ] using hq2)
          exact Nat.succ_ne_zero k2 this
        rw [rebuildAux_no_occ q rest (idx + 1) _ hno, hv]
        simp [pttGet_set_self]
    | succ k2 =>
        have hq2 : atD rest k2 = q := by simpa [atD_cons_succ] using hq
        have hk2 : k2 < rest.length := by simpa using hk
        have huni2 : ∀ k3, k3 < rest.length → atD rest k3 = q → k3 = k2 := by
          intro k3 hk3 hq3
          have := huni (k3 + 1) (by simpa using Nat.succ_lt_succ hk3)
            (by simpa [atD_cons_succ] using hq3)
          omega
        rw [rebuildAux_unique_occ q rest (idx + 1) (pttSet v idx m) k2 hk2 hq2 huni2]
        congr 1
        omega

theorem rebuildAux_nodup :
    ∀ (X : List Int) (idx : Nat) (m : List (Int × Nat)),
      (pttKeys m).Nodup → (pttKeys (rebuildAux X idx m)).Nodup
| [], _, _, h => h
| v :: rest, idx, m, h =>
    rebuildAux_nodup rest (idx + 1) (pttSet v idx m) (pttKeys_set_nodup v idx m h)

/-- The inductive invariant for the Bimap bijection. -/
structure BInv (b : Bimap) : Prop where
  nfi0 : 0 ≤ b.next_free_index
  dir1 : ∀ i : Nat, i < b.ttp.length → 0 ≤ atD b.ttp i →
    pttGet (atD b.ttp i) b.ptt = some i
  dir2 : ∀ (j : Int) (i : Nat), 0 ≤ j → pttGet j b.ptt = some i →
    i < b.ttp.length ∧ atD b.ttp i = j
  keyB : ∀ (j : Int) (i : Nat), pttGet j b.ptt = some i → j < b.next_free_index
  valB : ∀ i : Nat, atD b.ttp i < b.next_free_index
  nxtB : ∀ k : Nat, atD b.ttp_next k < b.next_free_index
  nxtInj : ∀ k1 k2 : Nat, k1 ≠ k2 → 0 ≤ atD b.ttp_next k1 →
    atD b.ttp_next k1 ≠ atD b.ttp_next k2
  nodupP : (pttKeys b.ptt).Nodup

theorem BInv_init : BInv Bimap.init := by
  refine ⟨le_refl 0, ?_, ?_, ?_, ?_, ?_, ?_, ?_⟩
  · intro i hi
    simp [Bimap.init] at hi
  · intro j i _ hget
    simp [Bimap.init, pttGet] at hget
  · intro j i hget
    simp [Bimap.init, pttGet] at hget
  · intro i
    simp [Bimap.init, atD]
  · intro k
    simp [Bimap.init, atD]
  · intro k1 k2 _ h0
    simp [Bimap.init, atD] at h0
  · simp [Bimap.init, pttKeys]

theorem BInv_add (b : Bimap) (i : Nat) (hInv : BInv b)
    (hpre : b.ttp.length ≤ i ∨ atD b.ttp i = -1) : BInv (b.add i).1 := by
  have hfree : atD b.ttp i = -1 := by
    rcases hpre with h | h
    · exact atD_out b.ttp i h
    · exact h
  set N := b.next_free_index with hN
  have hN0 : 0 ≤ N := hInv.nfi0
  have hlen : ((ensureSize b.ttp i).set i N).length = max b.ttp.length (i + 1) := by
    simp [ensureSize_length]
  have hi_lt : i < (ensureSize b.ttp i).length := by
    rw [ensureSize_length]; omega
  have hat_i : atD ((ensureSize b.ttp i).set i N) i = N :=
    atD_set_self _ i N hi_lt
  have hat_ne : ∀ k : Nat, k ≠ i → atD ((ensureSize b.ttp i).set i N) k = atD b.ttp k := by
    intro k hk
    rw [atD_set_ne _ i k N hk, atD_ensureSize]
  refine ⟨by simp [Bimap.add]; omega, ?_, ?_, ?_, ?_, ?_, ?_, ?_⟩
  · intro k hk hk0
    simp only [Bimap.add] at hk hk0 ⊢
    by_cases hki : k = i
    · subst hki
      rw [hat_i]
      exact pttGet_set_self N k b.ptt
    · rw [hat_ne k hki] at hk0 ⊢
      have hklen : k < b.ttp.length := by
        by_contra hns
        rw [atD_out b.ttp k (by omega)] at hk0
        omega
      have hold := hInv.dir1 k hklen hk0
      have hne : atD b.ttp k ≠ N := by
        have := hInv.valB k
        omega
      rw [pttGet_set_ne N (atD b.ttp k) i b.ptt hne]
      exact hold
  · intro j k hj hget
    simp only [Bimap.add] at hget ⊢
    by_cases hjN : j = N
    · subst hjN
      rw [pttGet_set_self] at hget
      obtain rfl : i = k := by simpa using hget
      constructor
      · rw [hlen]; omega
      · exact hat_i
    · rw [pttGet_set_ne N j i b.ptt hjN] at hget
      obtain ⟨hlt, heq⟩ := hInv.dir2 j k hj hget
      have hki : k ≠ i := by
        intro hh
        rw [hh, hfree] at heq
        omega
      constructor
      · rw [hlen]; omega
      · rw [hat_ne k hki]; exact heq
  · intro j k hget
    simp only [Bimap.add] at hget ⊢
    by_cases hjN : j = N
    · subst hjN; omega
    · rw [pttGet_set_ne N j i b.ptt hjN] at hget
      have := hInv.keyB j k hget
      omega
  · intro k
    simp only [Bimap.add]
    by_cases hki : k = i
    · subst hki; rw [hat_i]; omega
    · rw [hat_ne k hki]
      have := hInv.valB k
      omega
  · intro k
    simp only [Bimap.add]
    have := hInv.nxtB k
    omega
  · intro k1 k2 hne h0
    simp only [Bimap.add] at h0 ⊢
    exact hInv.nxtInj k1 k2 hne h0
  · simp only [Bimap.add]
    exact pttKeys_set_nodup N i b.ptt hInv.nodupP

theorem BInv_drop (b : Bimap) (i : Nat) (hInv : BInv b)
    (hpre : i < b.ttp.length ∧ 0 ≤ atD b.ttp i) : BInv (b.drop i) := by
  obtain ⟨hi, h0⟩ := hpre
  have hKi : pttGet (atD b.ttp i) b.ptt = some i := hInv.dir1 i hi h0
  have hlen : (b.ttp.set i (-1)).length = b.ttp.length := by simp
  have hat_i : atD (b.ttp.set i (-1)) i = -1 := atD_set_self _ i (-1) hi
  have hat_ne : ∀ k : Nat, k ≠ i → atD (b.ttp.set i (-1)) k = atD b.ttp k :=
    fun k hk => atD_set_ne _ i k (-1) hk
  refine ⟨hInv.nfi0, ?_, ?_, ?_, ?_, ?_, ?_, ?_⟩
  · intro k hk hk0
    simp only [Bimap.drop] at hk hk0 ⊢
    by_cases hki : k = i
    · subst hki
      rw [hat_i] at hk0
      omega
    · rw [hat_ne k hki] at hk0 ⊢
      rw [hlen] at hk
      have hold := hInv.dir1 k hk hk0
      have hne : atD b.ttp k ≠ atD b.ttp i := by
        intro hh
        rw [hh, hKi] at hold
        have : i = k := by simpa using hold
        exact hki this.symm
      rw [pttGet_erase_ne (atD b.ttp i) (atD b.ttp k) b.ptt hne]
      exact hold
  · intro j k hj hget
    simp only [Bimap.drop] at hget ⊢
    have hne : j ≠ atD b.ttp i := by
      intro hh
      rw [hh, pttGet_erase_self _ _ hInv.nodupP] at hget
      exact Option.noConfusion hget
    rw [pttGet_erase_ne _ _ _ hne] at hget
    obtain ⟨hlt, heq⟩ := hInv.dir2 j k hj hget
    have hki : k ≠ i := by
      intro hh
      rw [hh] at heq
      exact hne heq.symm
    refine ⟨by rw [hlen]; exact hlt, ?_⟩
    rw [hat_ne k hki]
    exact heq
  · intro j k hget
    simp only [Bimap.drop] at hget ⊢
    have hne : j ≠ atD b.ttp i := by
      intro hh
      rw [hh, pttGet_erase_self _ _ hInv.nodupP] at hget
      exact Option.noConfusion hget
    rw [pttGet_erase_ne _ _ _ hne] at hget
    exact hInv.keyB j k hget
  · intro k
    simp only [Bimap.drop]
    by_cases hki : k = i
    · subst hki
      rw [hat_i]
      have := hInv.nfi0
      omega
    · rw [hat_ne k hki]
      exact hInv.valB k
  · intro k
    simp only [Bimap.drop]
    exact hInv.nxtB k
  · intro k1 k2 hne h0
    simp only [Bimap.drop] at h0 ⊢
    exact hInv.nxtInj k1 k2 hne h0
  · simp only [Bimap.drop]
    exact pttKeys_erase_nodup _ _ hInv.nodupP

theorem BInv_swap (b : Bimap) (i j : Nat) (hInv : BInv b)
    (hpre : i < b.ttp.length ∧ j < b.ttp.length ∧
      0 ≤ atD b.ttp i ∧ 0 ≤ atD b.ttp j) : BInv (b.swap i j) := by
  obtain ⟨hi, hj, h0i, h0j⟩ := hpre
  set ir := atD b.ttp i with hir
  set jr := atD b.ttp j with hjr
  have hgi : pttGet ir b.ptt = some i := hInv.dir1 i hi h0i
  have hgj : pttGet jr b.ptt = some j := hInv.dir1 j hj h0j
  have hlen : ((b.ttp.set i jr).set j ir).length = b.ttp.length := by simp
  have hat : ∀ k : Nat, atD ((b.ttp.set i jr).set j ir) k
      = if k = j then ir else if k = i then jr else atD b.ttp k := by
    intro k
    by_cases hkj : k = j
    · subst hkj
      rw [if_pos rfl]
      exact atD_set_self _ k ir (by simpa using hj)
    · rw [if_neg hkj, atD_set_ne _ j k ir hkj]
      by_cases hki : k = i
      · subst hki
        rw [if_pos rfl]
        exact atD_set_self _ k jr hi
      · rw [if_neg hki, atD_set_ne _ i k jr hki]
  have hget : ∀ q : Int, pttGet q (pttSet jr i (pttSet ir j b.ptt))
      = if q = jr then some i else if q = ir then some j else pttGet q b.ptt := by
    intro q
    by_cases hqjr : q = jr
    · subst hqjr
      rw [if_pos rfl, pttGet_set_self]
    · rw [if_neg hqjr, pttGet_set_ne jr q i _ hqjr]
      by_cases hqir : q = ir
      · subst hqir
        rw [if_pos rfl, pttGet_set_self]
      · rw [if_neg hqir, pttGet_set_ne ir q j _ hqir]
  refine ⟨hInv.nfi0, ?_, ?_, ?_, ?_, ?_, ?_, ?_⟩
  · intro k hk hk0
    simp only [Bimap.swap] at hk hk0 ⊢
    rw [hlen] at hk
    rw [← hir, ← hjr] at hk0 ⊢
    by_cases hkj : k = j
    · subst hkj
      rw [hat k, if_pos rfl] at hk0 ⊢
      rw [hget ir]
      by_cases hirjr : ir = jr
      · rw [if_pos hirjr]
        have hik : i = k := by
          rw [hirjr, hgj] at hgi
          have : k = i := by simpa using hgi
          omega
        rw [hik]
      · rw [if_neg hirjr, if_pos rfl]
    · by_cases hki : k = i
      · subst hki
        rw [hat k, if_neg hkj, if_pos rfl] at hk0 ⊢
        rw [hget jr, if_pos rfl]
      · rw [hat k, if_neg hkj, if_neg hki] at hk0 ⊢
        have hold := hInv.dir1 k hk hk0
        have hne1 : atD b.ttp k ≠ jr := by
          intro hh
          rw [hh, hgj] at hold
          have : j = k := by simpa using hold
          exact hkj this.symm
        have hne2 : atD b.ttp k ≠ ir := by
          intro hh
          rw [hh, hgi] at hold
          have : i = k := by simpa using hold
          exact hki this.symm
        rw [hget (atD b.ttp k), if_neg hne1, if_neg hne2]
        exact hold
  · intro q k hq hget2
    simp only [Bimap.swap] at hget2 ⊢
    rw [← hir, ← hjr] at hget2 ⊢
    rw [hget] at hget2
    rw [hlen]
    by_cases hqjr : q = jr
    · subst hqjr
      rw [if_pos rfl] at hget2
      obtain rfl : i = k := by simpa using hget2
      refine ⟨hi, ?_⟩
      rw [hat i]
      by_cases hij : i = j
      · rw [if_pos hij, hir, hjr, hij]
      · rw [if_neg hij, if_pos rfl]
    · rw [if_neg hqjr] at hget2
      by_cases hqir : q = ir
      · subst hqir
        rw [if_pos rfl] at hget2
        obtain rfl : j = k := by simpa using hget2
        refine ⟨hj, ?_⟩
        rw [hat j, if_pos rfl]
      · rw [if_neg hqir] at hget2
        obtain ⟨hlt, heq⟩ := hInv.dir2 q k hq hget2
        have hki : k ≠ i := by
          intro hh
          rw [hh] at heq
          exact hqir heq.symm
        have hkj : k ≠ j := by
          intro hh
          rw [hh] at heq
          exact hqjr heq.symm
        refine ⟨hlt, ?_⟩
        rw [hat k, if_neg hkj, if_neg hki]
        exact heq
  · intro q k hget2
    simp only [Bimap.swap] at hget2 ⊢
    rw [← hir, ← hjr] at hget2
    rw [hget] at hget2
    by_cases hqjr : q = jr
    · subst hqjr
      have := hInv.valB j
      omega
    · rw [if_neg hqjr] at hget2
      by_cases hqir : q = ir
      · subst hqir
        have := hInv.valB i
        omega
      · rw [if_neg hqir] at hget2
        exact hInv.keyB q k hget2
  · intro k
    simp only [Bimap.swap]
    rw [← hir, ← hjr, hat k]
    by_cases hkj : k = j
    · rw [if_pos hkj]
      exact hInv.valB i
    · rw [if_neg hkj]
      by_cases hki : k = i
      · rw [if_pos hki]
        exact hInv.valB j
      · rw [if_neg hki]
        exact hInv.valB k
  · intro k
    simp only [Bimap.swap]
    exact hInv.nxtB k
  · intro k1 k2 hne h0
    simp only [Bimap.swap] at h0 ⊢
    exact hInv.nxtInj k1 k2 hne h0
  · simp only [Bimap.swap]
    exact pttKeys_set_nodup _ _ _ (pttKeys_set_nodup _ _ _ hInv.nodupP)

theorem BInv_willMove (b : Bimap) (i j : Nat) (hInv : BInv b)
    (hpre : i < b.ttp.length ∧ 0 ≤ atD b.ttp i ∧
      b.ttp_next.contains (atD b.ttp i) = false) : BInv (b.will_move i j) := by
  obtain ⟨hi, h0, hnotin⟩ := hpre
  set v := atD b.ttp i with hv
  have hj_lt : j < (ensureSize b.ttp_next j).length := by
    rw [ensureSize_length]; omega
  have hat : ∀ k : Nat, atD ((ensureSize b.ttp_next j).set j v) k
      = if k = j then v else atD b.ttp_next k := by
    intro k
    by_cases hkj : k = j
    · subst hkj
      rw [if_pos rfl]
      exact atD_set_self _ k v hj_lt
    · rw [if_neg hkj, atD_set_ne _ j k v hkj, atD_ensureSize]
  have hnomem : ∀ k : Nat, atD b.ttp_next k ≠ v := by
    intro k
    by_cases hk : k < b.ttp_next.length
    · intro hh
      have hm : v ∈ b.ttp_next := hh ▸ atD_mem b.ttp_next k hk
      have hnm : v ∉ b.ttp_next := by simpa using hnotin
      exact absurd hm hnm
    · rw [atD_out b.ttp_next k (by omega)]
      omega
  refine ⟨hInv.nfi0, ?_, ?_, ?_, ?_, ?_, ?_, ?_⟩
  · intro k hk hk0
    simp only [Bimap.will_move] at hk hk0 ⊢
    exact hInv.dir1 k hk hk0
  · intro q k hq hget
    simp only [Bimap.will_move] at hget ⊢
    exact hInv.dir2 q k hq hget
  · intro q k hget
    simp only [Bimap.will_move] at hget ⊢
    exact hInv.keyB q k hget
  · intro k
    simp only [Bimap.will_move]
    exact hInv.valB k
  · intro k
    simp only [Bimap.will_move]
    rw [← hv, hat k]
    by_cases hkj : k = j
    · rw [if_pos hkj]
      exact hInv.valB i
    · rw [if_neg hkj]
      exact hInv.nxtB k
  · intro k1 k2 hne h0
    simp only [Bimap.will_move] at h0 ⊢
    rw [← hv] at h0 ⊢
    rw [hat k1] at h0 ⊢
    rw [hat k2]
    by_cases hk1 : k1 = j
    · rw [if_pos hk1] at h0 ⊢
      have hk2 : ¬ (k2 = j) := by omega
      rw [if_neg hk2]
      exact fun hh => hnomem k2 hh.symm
    · rw [if_neg hk1] at h0 ⊢
      by_cases hk2 : k2 = j
      · rw [if_pos hk2]
        exact hnomem k1
      · rw [if_neg hk2]
        exact hInv.nxtInj k1 k2 hne h0
  · simp only [Bimap.will_move]
    exact hInv.nodupP

theorem BInv_flip (b : Bimap) (hInv : BInv b) : BInv b.flip_buffer := by
  have huni : ∀ (q : Int), 0 ≤ q → ∀ k k2 : Nat,
      k < b.ttp_next.length → atD b.ttp_next k = q →
      k2 < b.ttp_next.length → atD b.ttp_next k2 = q → k2 = k := by
    intro q hq k k2 hk hkq hk2 hk2q
    by_contra hne
    exact hInv.nxtInj k2 k (by omega) (by omega) (by rw [hkq, hk2q])
  refine ⟨hInv.nfi0, ?_, ?_, ?_, ?_, ?_, ?_, ?_⟩
  · intro k hk hk0
    simp only [Bimap.flip_buffer] at hk hk0 ⊢
    have := rebuildAux_unique_occ (atD b.ttp_next k) b.ttp_next 0 [] k hk rfl
      (fun k2 hk2 hq2 => huni (atD b.ttp_next k) hk0 k k2 hk rfl hk2 hq2)
    simpa using this
  · intro q k hq hget
    simp only [Bimap.flip_buffer] at hget ⊢
    have hex : ∃ k0 : Nat, k0 < b.ttp_next.length ∧ atD b.ttp_next k0 = q := by
      by_contra hno
      push_neg at hno
      rw [rebuildAux_no_occ q b.ttp_next 0 [] (fun k2 hk2 => hno k2 hk2)] at hget
      exact Option.noConfusion hget
    obtain ⟨k0, hk0, hq0⟩ := hex
    have := rebuildAux_unique_occ q b.ttp_next 0 [] k0 hk0 hq0
      (fun k2 hk2 hq2 => huni q hq k0 k2 hk0 hq0 hk2 hq2)
    rw [this] at hget
    obtain rfl : k0 = k := by simpa using hget
    exact ⟨hk0, hq0⟩
  · intro q k hget
    simp only [Bimap.flip_buffer] at hget ⊢
    have hex : ∃ k0 : Nat, k0 < b.ttp_next.length ∧ atD b.ttp_next k0 = q := by
      by_contra hno
      push_neg at hno
      rw [rebuildAux_no_occ q b.ttp_next 0 [] (fun k2 hk2 => hno k2 hk2)] at hget
      exact Option.noConfusion hget
    obtain ⟨k0, _, hq0⟩ := hex
    rw [← hq0]
    exact hInv.nxtB k0
  · intro k
    simp only [Bimap.flip_buffer]
    exact hInv.nxtB k
  · intro k
    simp only [Bimap.flip_buffer]
    have hnil : atD ([] : List Int) k = -1 := by simp [atD]
    rw [hnil]
    have := hInv.nfi0
    omega
  · intro k1 k2 _ h0
    simp only [Bimap.flip_buffer] at h0
    have hnil : atD ([] : List Int) k1 = -1 := by simp [atD]
    rw [hnil] at h0
    omega
  · simp only [Bimap.flip_buffer]
    exact rebuildAux_nodup b.ttp_next 0 [] (by simp [pttKeys])

theorem BInv_applyOp (b : Bimap) (op : BOp) (hInv : BInv b)
    (hpre : opPreA b op) : BInv (applyOp b op) := by
  cases op with
  | add i => exact BInv_add b i hInv hpre
  | drop i => exact BInv_drop b i hInv hpre
  | swap i j => exact BInv_swap b i j hInv hpre
  | willMove i j => exact BInv_willMove b i j hInv hpre
  | flip => exact BInv_flip b hInv

theorem BInv_trace : ∀ (ops : List BOp) (b : Bimap), BInv b →
    TracePreA b ops → BInv (applyTrace b ops)
| [], _, h, _ => h
| op :: ops, b, h, hp =>
    BInv_trace ops (applyOp b op) (BInv_applyOp b op h hp.1) hp.2

/-- Counterexample to claim C5 as stated: two `will_move` calls for the
same live slot within one batch satisfy every assertion of the source, yet
after `flip_buffer` the persistent id `0` sits in two slots and the
bijection `bw(i) = j ≥ 0 → fw(j) = i` fails at slot `0`. -/
theorem claim_C5_counterexample :
    TracePre Bimap.init
      [BOp.add 0, BOp.willMove 0 0, BOp.willMove 0 1, BOp.flip] ∧
    (applyTrace Bimap.init
      [BOp.add 0, BOp.willMove 0 0, BOp.willMove 0 1, BOp.flip]).bw 0 = 0 ∧
    ¬ ((applyTrace Bimap.init
      [BOp.add 0, BOp.willMove 0 0, BOp.willMove 0 1, BOp.flip]).fw 0 = 0) := by
  decide

/-- Claim C5 (amended): after any operation sequence from a fresh `Bimap`
that satisfies the source's preconditions, strengthened so that a batch of
`will_move` calls never records the same pending persistent id twice, the
maps form a partial bijection: `bw(i) = j` with `j ≥ 0` implies
`fw(j) = i`; `fw(j) = i` with `i ≥ 0` and `j ≥ 0` implies `bw(i) = j`
(for `j = -1`, a key `flip_buffer` itself inserts, `fw` may point at a
live slot); and a persistent id held by no slot resolves to `-1`. -/
theorem claim_C5_bimap_bijection (ops : List BOp)
    (h : TracePreA Bimap.init ops) :
    (∀ (i : Nat) (j : Int), (applyTrace Bimap.init ops).bw i = j → 0 ≤ j →
      (applyTrace Bimap.init ops).fw j = (i : Int)) ∧
    (∀ (j i : Int), 0 ≤ j → (applyTrace Bimap.init ops).fw j = i → 0 ≤ i →
      (applyTrace Bimap.init ops).bw i.toNat = j) ∧
    (∀ j : Int, 0 ≤ j → (∀ i : Nat, (applyTrace Bimap.init ops).bw i ≠ j) →
      (applyTrace Bimap.init ops).fw j = -1) := by
  have hInv : BInv (applyTrace Bimap.init ops) :=
    BInv_trace ops Bimap.init BInv_init h
  set b := applyTrace Bimap.init ops with hb
  refine ⟨?_, ?_, ?_⟩
  · intro i j hbw hj
    rw [Bimap.bw] at hbw
    by_cases hlen : b.ttp.length ≤ i
    · rw [if_pos hlen] at hbw
      omega
    · rw [if_neg hlen] at hbw
      have := hInv.dir1 i (by omega) (hbw ▸ hj)
      rw [hbw] at this
      rw [Bimap.fw, this]
  · intro j i hj hfw hi
    rw [Bimap.fw] at hfw
    cases hget : pttGet j b.ptt with
    | none =>
        rw [hget] at hfw
        simp at hfw
        omega
    | some i0 =>
        rw [hget] at hfw
        simp at hfw
        obtain ⟨hlt, heq⟩ := hInv.dir2 j i0 hj hget
        have hi0 : i.toNat = i0 := by omega
        rw [Bimap.bw, hi0, if_neg (Nat.not_le.mpr hlt)]
        exact heq
  · intro j hj hno
    rw [Bimap.fw]
    cases hget : pttGet j b.ptt with
    | none => rfl
    | some i0 =>
        obtain ⟨hlt, heq⟩ := hInv.dir2 j i0 hj hget
        exfalso
        apply hno i0
        rw [Bimap.bw, if_neg (Nat.not_le.mpr hlt)]
        exact heq

/-- Witness for claim C5: `add(0); add(1); swap(0,1); drop(1)` leaves slot
`0` holding persistent id `1`, and the forward map agrees. -/
theorem claim_C5_witness :
    (applyTrace Bimap.init
      [BOp.add 0, BOp.add 1, BOp.swap 0 1, BOp.drop 1]).fw 1 = 0 :=
  (claim_C5_bimap_bijection
    [BOp.add 0, BOp.add 1, BOp.swap 0 1, BOp.drop 1] (by decide)).1
    0 1 (by decide) (by decide)

/-! ### InterleavedSolver (src/cs/InterleavedSolver.cc): Luby restarts

`double` arithmetic is modelled over `ℚ`; the C library `pow` (an external
collaborator) is a parameter `powfn`. -/

/-- The first loop of `InterleavedSolver::luby`: grow `size = 2^(seq+1)-1`
until `size >= x + 1`. -/
def lubyFirst (size seq x : Nat) : Nat × Nat :=
  if h : size < x + 1 then lubyFirst (2 * size + 1) (seq + 1) x
  else (size, seq)
termination_by x + 1 - size
decreasing_by omega

/-- The second loop of `InterleavedSolver::luby`: halve `size` and reduce
`x` modulo the new size until `size - 1 == x`.  From `luby`'s entry the
state always has `size = 2^(seq+1) - 1 > x`, so the `size <= 1` guard
(added only to make the recursion well-founded) is never taken with
`size - 1 ≠ x`. -/
def lubySecond (size seq x : Nat) : Nat :=
  if size - 1 = x then seq
  else if size ≤ 1 then seq
  else lubySecond ((size - 1) / 2) (seq - 1) (x % ((size - 1) / 2))
termination_by size
decreasing_by omega

/-- `InterleavedSolver::luby`. -/
def luby (x : Nat) : Nat :=
  let p := lubyFirst 1 0 x
  lubySecond p.1 p.2 x

/-- `InterleavedSolver::lubyExp`: `pow(base, luby(x))`. -/
def lubyExp (powfn : ℚ → ℚ → ℚ) (x : Nat) (base : ℚ) : ℚ :=
  powfn base ((luby x : Nat) : ℚ)

/-- The per-iteration budget of `interleavedSolveInternal`:
`lubyExp(r, restart_inc)` or `pow(r, restart_inc)`, times `restart_first`. -/
def restartBudget (powfn : ℚ → ℚ → ℚ) (lubyRestart : Bool)
    (restartInc restartFirst : ℚ) (r : Nat) : ℚ :=
  (if lubyRestart then lubyExp powfn r restartInc
   else powfn (r : ℚ) restartInc) * restartFirst

theorem lubyFirst_exact : ∀ (d seq x : Nat), x < 2 ^ (seq + d + 1) - 1 →
    (∀ t, seq ≤ t → t < seq + d → ¬ (x < 2 ^ (t + 1) - 1)) →
    lubyFirst (2 ^ (seq + 1) - 1) seq x = (2 ^ (seq + d + 1) - 1, seq + d)
| 0, seq, x, hx, _ => by
    simp only [Nat.add_zero] at hx ⊢
    rw [lubyFirst, dif_neg (by omega)]
| d + 1, seq, x, hx, hmin => by
    have hge : ¬ (x < 2 ^ (seq + 1) - 1) := hmin seq (le_refl seq) (by omega)
    rw [lubyFirst, dif_pos (by omega)]
    have h2 : 2 * (2 ^ (seq + 1) - 1) + 1 = 2 ^ (seq + 2) - 1 := by
      have hp : 2 ^ (seq + 2) = 2 * 2 ^ (seq + 1) := by ring
      have hpos : 1 ≤ 2 ^ (seq + 1) := Nat.one_le_two_pow
      omega
    rw [h2]
    have hrec := lubyFirst_exact d (seq + 1) x
      (by have he : seq + 1 + d = seq + (d + 1) := by omega
          rw [he]; exact hx)
      (fun t ht1 ht2 => hmin t (by omega) (by omega))
    have he : seq + 1 + d = seq + (d + 1) := by omega
    rw [he] at hrec
    exact hrec

/-- The first loop lands exactly on the level of `x`. -/
theorem lubyFirst_level (k x : Nat) (h1 : 2 ^ k - 1 ≤ x)
    (h2 : x < 2 ^ (k + 1) - 1) :
    lubyFirst 1 0 x = (2 ^ (k + 1) - 1, k) := by
  have := lubyFirst_exact k 0 x (by simpa using h2) (fun t _ ht2 => by
    have hmono : 2 ^ (t + 1) ≤ 2 ^ k := Nat.pow_le_pow_right (by omega) (by omega)
    omega)
  simpa using this

/-- The base-case equation of the Luby sequence. -/
theorem luby_base (k : Nat) : luby (2 ^ (k + 1) - 2) = k := by
  have hpos : 1 ≤ 2 ^ k := Nat.one_le_two_pow
  have hp : 2 ^ (k + 1) = 2 * 2 ^ k := by ring
  have h1 : 2 ^ k - 1 ≤ 2 ^ (k + 1) - 2 := by omega
  have h2 : 2 ^ (k + 1) - 2 < 2 ^ (k + 1) - 1 := by
    have : 2 ≤ 2 ^ (k + 1) := by omega
    omega
  rw [luby, lubyFirst_level k _ h1 h2]
  rw [lubySecond, if_pos (by omega)]

/-- Descending through `lubySecond` from level `j` computes `luby` for any
`x` strictly below `2^j - 1`. -/
theorem lubySecond_descend : ∀ (j x : Nat), x < 2 ^ j - 1 →
    lubySecond (2 ^ j - 1) (j - 1) x = luby x := by
  intro j
  induction j using Nat.strong_induction_on with
  | _ j ih =>
      intro x hx
      match j, ih with
      | 0, _ => simp at hx
      | j + 1, ih =>
          have hpos : 1 ≤ 2 ^ j := Nat.one_le_two_pow
          have hp : 2 ^ (j + 1) = 2 * 2 ^ j := by ring
          by_cases hbase : x = 2 ^ (j + 1) - 2
          · subst hbase
            rw [lubySecond, if_pos (by omega), luby_base]
            omega
          · by_cases hlow : 2 ^ j - 1 ≤ x
            · rw [luby, lubyFirst_level j x hlow (by omega)]
              have he : j + 1 - 1 = j := by omega
              rw [he]
            · have hj2 : ¬ (j = 0) := fun hj0 => by
                subst hj0
                exact hlow (by norm_num)
              rw [lubySecond, if_neg (by omega), if_neg (by omega)]
              have hhalf : (2 ^ (j + 1) - 1 - 1) / 2 = 2 ^ j - 1 := by omega
              rw [hhalf]
              have hmod : x % (2 ^ j - 1) = x := Nat.mod_eq_of_lt (by omega)
              rw [hmod, show j + 1 - 1 - 1 = j - 1 by omega]
              exact ih j (by omega) x (by omega)

/-- The recursive equation of the Luby sequence. -/
theorem luby_rec (k x : Nat) (h1 : 2 ^ k - 1 ≤ x)
    (h2 : x < 2 ^ (k + 1) - 2) : luby x = luby (x % (2 ^ k - 1)) := by
  have hpos : 1 ≤ 2 ^ k := Nat.one_le_two_pow
  have hp : 2 ^ (k + 1) = 2 * 2 ^ k := by ring
  have hk : ¬ (k = 0) := fun hk0 => by
    subst hk0
    norm_num at h2
  rw [luby, lubyFirst_level k x h1 (by omega)]
  rw [lubySecond, if_neg (by omega), if_neg (by omega)]
  have hhalf : (2 ^ (k + 1) - 1 - 1) / 2 = 2 ^ k - 1 := by omega
  rw [hhalf, show k - 1 = k - 1 by rfl]
  exact lubySecond_descend k (x % (2 ^ k - 1))
    (Nat.lt_of_lt_of_le (Nat.mod_lt x (by omega)) (by omega))

/-- Claim C9: `luby` satisfies the standard doubling-prefix
characterization (`luby(2^(k+1) - 2) = k`, and
`luby(x) = luby(x mod (2^k - 1))` on `[2^k - 1, 2^(k+1) - 2)`);
`lubyExp(x, b) = b^luby(x)` whenever the external `pow` agrees with exact
exponentiation on natural exponents; and the restart loop's per-iteration
budget is `restart_first * base^luby(r)` under Luby restarts and
`restart_first * pow(r, base)` otherwise. -/
theorem claim_C9_luby_restart_budget :
    (∀ k : Nat, luby (2 ^ (k + 1) - 2) = k) ∧
    (∀ k x : Nat, 2 ^ k - 1 ≤ x → x < 2 ^ (k + 1) - 2 →
      luby x = luby (x % (2 ^ k - 1))) ∧
    (∀ (powfn : ℚ → ℚ → ℚ),
      (∀ (b : ℚ) (n : Nat), powfn b ((n : Nat) : ℚ) = b ^ n) →
      ∀ (x : Nat) (base restartFirst : ℚ),
        lubyExp powfn x base = base ^ luby x ∧
        restartBudget powfn true base restartFirst x
          = restartFirst * base ^ luby x ∧
        restartBudget powfn false base restartFirst x
          = restartFirst * powfn ((x : Nat) : ℚ) base) := by
  refine ⟨luby_base, luby_rec, ?_⟩
  intro powfn hpow x base restartFirst
  refine ⟨hpow base (luby x), ?_, ?_⟩
  · rw [restartBudget, if_pos rfl, lubyExp, hpow base (luby x), mul_comm]
  · rw [restartBudget, if_neg (by simp), mul_comm]

/-- Witness for claim C9: `luby(6) = 2` (base case at `k = 2`),
`luby(9) = luby(9 mod 7)` (recursive case at `k = 3`), and the budget
formula at `r = 3` for a concrete exact `pow`. -/
theorem claim_C9_witness :
    luby (2 ^ 3 - 2) = 2 ∧
    luby 9 = luby (9 % (2 ^ 3 - 1)) ∧
    restartBudget (fun b e => b ^ e.num.toNat) true 2 100 3
      = 100 * 2 ^ luby 3 := by
  have hpow : ∀ (b : ℚ) (n : Nat),
      (fun (b : ℚ) (e : ℚ) => b ^ e.num.toNat) b ((n : Nat) : ℚ) = b ^ n := by
    intro b n
    simp
  refine ⟨claim_C9_luby_restart_budget.1 2, ?_, ?_⟩
  · exact claim_C9_luby_restart_budget.2.1 3 9 (by norm_num) (by norm_num)
  · exact (claim_C9_luby_restart_budget.2.2 (fun b e => b ^ e.num.toNat)
      hpow 3 2 100).2.1

/-! ### CubifyingSolverBase::interleavedSolveStep, phase 2 (cubify)

The engine effects of `cubifyOne()` / `withinBudget()` / `canCubify()` are
external to the loop; they are modelled by oracles indexed by the number
of loop iterations executed so far. -/

/-- The visible loop state: `propagations`, the `cubifications` counter,
the last `cubifyOne` status, and the oracle cursor. -/
structure Ph2State where
  p : Nat
  cubifications : Nat
  status : Lbool
  n : Nat
deriving DecidableEq, Repr

/-- `int propagationLimit = propagations + k_c * (propagations - p0)`:
`propagations` has already advanced to `p1` when the limit is computed, so
the bound is `p1 + k_c * (p1 - p0)` (truncated to `int`). -/
def ph2Limit (kc : ℚ) (p0 p1 : Nat) : Int :=
  Int.floor ((p1 : ℚ) + kc * ((p1 : ℚ) - (p0 : ℚ)))

/-- The phase-2 loop.  Returns the final state and the list of states at
which the body was entered (one entry per `cubifyOne` call). -/
def phase2 (wb canC : Nat → Bool) (delta : Nat → Nat) (res : Nat → Lbool)
    (limit : Int) : Nat → Ph2State → Ph2State × List Ph2State
| 0, s => (s, [])
| fuel + 1, s =>
    if (s.p : Int) < limit then
      if wb s.n = true then
        if canC s.n = true then
          let s' : Ph2State :=
            ⟨s.p + delta s.n, s.cubifications + 1, res s.n, s.n + 1⟩
          if res s.n = Lbool.lundef then
            let r := phase2 wb canC delta res limit fuel s'
            (r.1, s :: r.2)
          else (s', [s])
        else (s, [])
      else (s, [])
    else (s, [])

/-- Phase 2 as entered from the step: the limit is computed from `p0` and
the current propagation count `s0.p` (which is `p1`). -/
def phase2Entry (kc : ℚ) (p0 : Nat) (wb canC : Nat → Bool)
    (delta : Nat → Nat) (res : Nat → Lbool) (fuel : Nat) (s0 : Ph2State) :
    Ph2State × List Ph2State :=
  phase2 wb canC delta res (ph2Limit kc p0 s0.p) fuel s0

theorem phase2_guard (wb canC : Nat → Bool) (delta : Nat → Nat)
    (res : Nat → Lbool) (limit : Int) :
    ∀ (fuel : Nat) (s : Ph2State),
      ∀ e ∈ (phase2 wb canC delta res limit fuel s).2,
        (e.p : Int) < limit ∧ wb e.n = true ∧ canC e.n = true := by
  intro fuel
  induction fuel with
  | zero => intro s e he; simp [phase2] at he
  | succ fuel ih =>
      intro s e he
      rw [phase2] at he
      by_cases h1 : (s.p : Int) < limit
      · rw [if_pos h1] at he
        by_cases h2 : wb s.n = true
        · rw [if_pos h2] at he
          by_cases h3 : canC s.n = true
          · rw [if_pos h3] at he
            by_cases h4 : res s.n = Lbool.lundef
            · rw [if_pos h4] at he
              simp only [List.mem_cons] at he
              rcases he with he | he
              · exact he ▸ ⟨h1, h2, h3⟩
              · exact ih _ e he
            · rw [if_neg h4] at he
              simp only [List.mem_singleton] at he
              exact he ▸ ⟨h1, h2, h3⟩
          · rw [if_neg h3] at he
            simp at he
        · rw [if_neg h2] at he
          simp at he
      · rw [if_neg h1] at he
        simp at he

theorem phase2_count (wb canC : Nat → Bool) (delta : Nat → Nat)
    (res : Nat → Lbool) (limit : Int) :
    ∀ (fuel : Nat) (s : Ph2State),
      (phase2 wb canC delta res limit fuel s).1.cubifications
        = s.cubifications + (phase2 wb canC delta res limit fuel s).2.length := by
  intro fuel
  induction fuel with
  | zero => intro s; simp [phase2]
  | succ fuel ih =>
      intro s
      rw [phase2]
      by_cases h1 : (s.p : Int) < limit
      · rw [if_pos h1]
        by_cases h2 : wb s.n = true
        · rw [if_pos h2]
          by_cases h3 : canC s.n = true
          · rw [if_pos h3]
            by_cases h4 : res s.n = Lbool.lundef
            · rw [if_pos h4]
              simp only [List.length_cons]
              rw [ih]
              simp
              omega
            · rw [if_neg h4]
              simp
          · rw [if_neg h3]; simp
        · rw [if_neg h2]; simp
      · rw [if_neg h1]; simp

theorem phase2_abort (wb canC : Nat → Bool) (delta : Nat → Nat)
    (res : Nat → Lbool) (limit : Int) :
    ∀ (fuel : Nat) (s : Ph2State),
      ∀ e ∈ (phase2 wb canC delta res limit fuel s).2,
        res e.n ≠ Lbool.lundef →
        (phase2 wb canC delta res limit fuel s).2.getLast? = some e ∧
        (phase2 wb canC delta res limit fuel s).1.status = res e.n := by
  intro fuel
  induction fuel with
  | zero => intro s e he; simp [phase2] at he
  | succ fuel ih =>
      intro s e he hres
      rw [phase2] at he ⊢
      by_cases h1 : (s.p : Int) < limit
      · rw [if_pos h1] at he ⊢
        by_cases h2 : wb s.n = true
        · rw [if_pos h2] at he ⊢
          by_cases h3 : canC s.n = true
          · rw [if_pos h3] at he ⊢
            by_cases h4 : res s.n = Lbool.lundef
            · rw [if_pos h4] at he ⊢
              simp only [List.mem_cons] at he
              rcases he with he | he
              · exact absurd (he ▸ h4) hres
              · obtain ⟨hlast, hstat⟩ := ih _ e he hres
                constructor
                · have hne : (phase2 wb canC delta res limit fuel
                      ⟨s.p + delta s.n, s.cubifications + 1, res s.n, s.n + 1⟩).2 ≠ [] := by
                    intro hnil
                    rw [hnil] at he
                    simp at he
                  simp only [List.getLast?_cons]
                  rw [hlast]
                  rfl
                · exact hstat
            · rw [if_neg h4] at he ⊢
              simp only [List.mem_singleton] at he
              subst he
              exact ⟨rfl, rfl⟩
          · rw [if_neg h3] at he; simp at he
        · rw [if_neg h2] at he; simp at he
      · rw [if_neg h1] at he; simp at he

/-- Concrete phase-2 entry state: `p1 = 10` propagations after a search
that started at `p0 = 0`, with permissive oracles and `k_c = 1`. -/
def ph2S0 : Ph2State := ⟨10, 0, Lbool.lundef, 0⟩

/-- One phase-2 run of the code on that state (fuel 1). -/
def ph2Run : Ph2State × List Ph2State :=
  phase2Entry 1 0 (fun _ => true) (fun _ => true) (fun _ => 0)
    (fun _ => Lbool.lundef) 1 ph2S0

theorem ph2Run_log : ph2Run.2 = [ph2S0] := by
  have hlim : ph2Limit 1 0 10 = 20 := by
    norm_num [ph2Limit]
  rw [ph2Run, phase2Entry]
  norm_num [ph2S0, hlim, phase2]

/-- Counterexample to claim C3 as stated: with `p0 = 0`, `p1 = 10`,
`k_c = 1`, the claimed guard `propagations < p0 + k_c * (p1 - p0) = 10`
forbids any iteration, yet the code (whose limit is
`p1 + k_c * (p1 - p0) = 20`) executes one. -/
theorem claim_C3_counterexample :
    ¬ (∀ e ∈ ph2Run.2,
        (e.p : Int) < Int.floor ((0 : ℚ) + 1 * ((10 : ℚ) - (0 : ℚ)))) := by
  intro h
  have hmem : ph2S0 ∈ ph2Run.2 := by
    rw [ph2Run_log]
    exact List.mem_singleton.mpr rfl
  have h2 := h ph2S0 hmem
  have h3 : Int.floor ((0 : ℚ) + 1 * ((10 : ℚ) - (0 : ℚ))) = 10 := by
    norm_num
  rw [h3] at h2
  simp [ph2S0] at h2

/-- Claim C3 (amended): with `p0` the count snapshotted before the
phase-1 search and `p1` the count at phase-2 entry, the cubification loop
iterates only while `propagations < p1 + k_c * (p1 - p0)` (the code adds
the budget to the already-advanced counter) and the global budget allows
and `canCubify()` reports work; it increments `cubifications` once per
`cubifyOne()` call, and a non-`Undef` result ends the phase immediately
with that status. -/
theorem claim_C3_phase2_loop (kc : ℚ) (p0 : Nat) (wb canC : Nat → Bool)
    (delta : Nat → Nat) (res : Nat → Lbool) (fuel : Nat) (s0 : Ph2State) :
    (∀ e ∈ (phase2Entry kc p0 wb canC delta res fuel s0).2,
      (e.p : Int) < ph2Limit kc p0 s0.p ∧ wb e.n = true ∧ canC e.n = true) ∧
    ((phase2Entry kc p0 wb canC delta res fuel s0).1.cubifications
      = s0.cubifications + (phase2Entry kc p0 wb canC delta res fuel s0).2.length) ∧
    (∀ e ∈ (phase2Entry kc p0 wb canC delta res fuel s0).2,
      res e.n ≠ Lbool.lundef →
      (phase2Entry kc p0 wb canC delta res fuel s0).2.getLast? = some e ∧
      (phase2Entry kc p0 wb canC delta res fuel s0).1.status = res e.n) :=
  ⟨phase2_guard wb canC delta res (ph2Limit kc p0 s0.p) fuel s0,
   phase2_count wb canC delta res (ph2Limit kc p0 s0.p) fuel s0,
   phase2_abort wb canC delta res (ph2Limit kc p0 s0.p) fuel s0⟩

/-- Witness for claim C3 on the concrete run: the single iteration obeys
the (amended) guard and is counted. -/
theorem claim_C3_witness :
    ((ph2S0.p : Int) < ph2Limit 1 0 ph2S0.p ∧
      (fun _ : Nat => true) ph2S0.n = true ∧
      (fun _ : Nat => true) ph2S0.n = true) ∧
    ph2Run.1.cubifications = ph2S0.cubifications + ph2Run.2.length := by
  have h := claim_C3_phase2_loop 1 0 (fun _ => true) (fun _ => true)
    (fun _ => 0) (fun _ => Lbool.lundef) 1 ph2S0
  constructor
  · have hmem : ph2S0 ∈ ph2Run.2 := by
      rw [ph2Run_log]
      exact List.mem_singleton.mpr rfl
    exact h.1 ph2S0 hmem
  · exact h.2.1

/-! ### CubifyingSolver::cubifyInternal (src/cs/CubifyingSolver.cc)

The CDCL engine is modelled by the parts `cubifyInternal` touches: the
trail and the decision-level boundaries `trail_lim`.  `value`, and the
literals appended and the conflict reported by `propagate`, are external
engine behaviour, modelled by oracles indexed by a cursor that advances at
every push move. -/

/-- The engine state visible to the path executor. -/
structure Engine where
  trail : List Nat
  trailLim : List Nat
deriving DecidableEq, Repr

/-- `decisionLevel()`. -/
def Engine.decisionLevel (e : Engine) : Nat := e.trailLim.length

/-- `newDecisionLevel()`: push the current trail size. -/
def Engine.newDecisionLevel (e : Engine) : Engine :=
  { e with trailLim := e.trailLim ++ [e.trail.length] }

/-- `cancelUntil(level)`: when above `level`, shrink the trail to
`trail_lim[level]` and the level stack to `level`. -/
def Engine.cancelUntil (e : Engine) (lvl : Nat) : Engine :=
  if lvl < e.decisionLevel then
    { e with
        trail := e.trail.take (e.trailLim.getD lvl 0),
        trailLim := e.trailLim.take lvl }
  else e

/-- `enqueue(L)`. -/
def Engine.enqueue (e : Engine) (L : Nat) : Engine :=
  { e with trail := e.trail ++ [L] }

/-- The mutable state of `cubifyInternal`'s path-execution loop. -/
structure CIState where
  eng : Engine
  cube : Cube
  stack : List Nat
  conflict : Bool
  cq : CubeQueue
  literalDifficulty : List Int
  props : Nat
  m : Nat

/-- The path-execution loop of `cubifyInternal`.  A `none` move is the
`lit_Undef` cancel sentinel; `some L` is a push move.  `vals` is the
engine's `value(L)` at the current cursor; `propLits`/`propConf`/
`propDelta` describe `propagate()` (appended literals, conflict flag,
propagation-counter delta). -/
def cubifyPath (vals : Nat → Lbool) (propConf : Nat → Bool)
    (propLits : Nat → List Nat) (propDelta : Nat → Nat)
    (pid : Int) (trail0 : Nat) : List (Option Nat) → CIState → CIState
| [], st => st
| Option.none :: rest, st =>
    cubifyPath vals propConf propLits propDelta pid trail0 rest
      { st with
          cube := st.cube.pop (st.stack.getLastD 0),
          stack := st.stack.dropLast,
          eng := st.eng.cancelUntil (st.eng.decisionLevel - 1) }
| Option.some L :: rest, st =>
    let stP : CIState := { st with
      stack := st.stack ++ [L],
      eng := st.eng.newDecisionLevel,
      m := st.m + 1 }
    match vals st.m with
    | Lbool.lfalse => { stP with cube := stP.cube.push L, conflict := true }
    | Lbool.ltrue => cubifyPath vals propConf propLits propDelta pid trail0 rest stP
    | Lbool.lundef =>
        let stE : CIState := { stP with
          cube := stP.cube.push L,
          eng := { trail := (stP.eng.enqueue L).trail ++ propLits st.m,
                   trailLim := stP.eng.trailLim },
          props := stP.props + propDelta st.m }
        if propConf st.m then { stE with conflict := true }
        else
          let stD : CIState := if stE.cube.size = 1
            then { stE with
              literalDifficulty := stE.literalDifficulty.set L (propDelta st.m) }
            else stE
          let score : ℚ := ((stD.eng.trail.length - trail0 : Nat) : ℚ) / (stD.cube.size : ℚ)
          let stQ : CIState := if 1 < score
            then { stD with cq := stD.cq.push stD.cube score pid }
            else stD
          cubifyPath vals propConf propLits propDelta pid trail0 rest stQ

/-- `cubifyInternal(i, root)` around the loop: snapshot `level0` and
`trail0`, run the path (produced by the pure planner
`makeCubifyPathDifficultyOrder`), cancel back to `level0`, and return the
conflict cube when one was found, else `root`. -/
def cubifyInternal (vals : Nat → Lbool) (propConf : Nat → Bool)
    (propLits : Nat → List Nat) (propDelta : Nat → Nat) (pid : Int)
    (root : Cube) (path : List (Option Nat)) (eng0 : Engine)
    (cq0 : CubeQueue) (ld0 : List Int) (props0 : Nat) : Cube × CIState :=
  let level0 := eng0.decisionLevel
  let trail0 := eng0.trail.length
  let stF := cubifyPath vals propConf propLits propDelta pid trail0 path
    ⟨eng0, ⟨[]⟩, [], false, cq0, ld0, props0, 0⟩
  let stR := { stF with eng := stF.eng.cancelUntil level0 }
  (if stF.conflict then stF.cube else root, stR)

/-- A path is well-formed relative to `d` open levels when no prefix
cancels more levels than have been opened (`makeCubifyPath` only emits
such paths: every sentinel pops a previously pushed literal). -/
def pathOK : Nat → List (Option Nat) → Prop
| _, [] => True
| d, Option.none :: rest => 0 < d ∧ pathOK (d - 1) rest
| d, Option.some _ :: rest => pathOK (d + 1) rest

instance decPathOK : (d : Nat) → (l : List (Option Nat)) → Decidable (pathOK d l)
| _, [] => inferInstanceAs (Decidable True)
| d, Option.none :: rest =>
    haveI := decPathOK (d - 1) rest
    inferInstanceAs (Decidable (_ ∧ _))
| d, Option.some _ :: rest => decPathOK (d + 1) rest

/-- The loop invariant: relative to the entry snapshot (`tl0`, `T0`), the
level stack is `tl0` plus the pending `lims`, the entry trail is a prefix
of the current one, the first pending boundary is the entry trail size,
and the boundaries are nondecreasing and within the current trail. -/
def InvCI (tl0 T0 : List Nat) (e : Engine) (lims : List Nat) : Prop :=
  e.trailLim = tl0 ++ lims ∧
  T0 <+: e.trail ∧
  (lims = [] → e.trail = T0) ∧
  (∀ x ∈ lims, T0.length ≤ x ∧ x ≤ e.trail.length) ∧
  (lims ≠ [] → lims.head? = some T0.length) ∧
  List.Sorted (· ≤ ·) lims

theorem sorted_le_last (l : List Nat) (hs : List.Sorted (· ≤ ·) l) :
    ∀ x ∈ l, x ≤ l.getD (l.length - 1) 0 := by
  induction l with
  | nil => simp
  | cons a rest ih =>
      intro x hx
      have ha : ∀ y ∈ rest, a ≤ y := fun y hy => (List.sorted_cons.mp hs).1 y hy
      have hs' : List.Sorted (· ≤ ·) rest := (List.sorted_cons.mp hs).2
      cases rest with
      | nil =>
          simp at hx
          simp [hx, List.getD]
      | cons b rest2 =>
          have hlen : (a :: b :: rest2).length - 1 = (b :: rest2).length - 1 + 1 := by
            simp
          rw [hlen, List.getD_cons_succ]
          rcases List.mem_cons.mp hx with hx | hx
          · have hab : x ≤ b := hx ▸ ha b (List.mem_cons_self b rest2)
            exact le_trans hab (ih hs' b (List.mem_cons_self b rest2))
          · exact ih hs' x hx

theorem head?_dropLast (l : List Nat) (h : l.dropLast ≠ []) :
    l.dropLast.head? = l.head? := by
  match l with
  | [] => simp at h
  | [a] => simp at h
  | a :: b :: rest => simp

theorem getD_last_mem (l : List Nat) (h : l ≠ []) :
    l.getD (l.length - 1) 0 ∈ l := by
  have hl : 0 < l.length := List.length_pos.mpr h
  rw [List.getD_eq_getElem?_getD,
    List.getElem?_eq_getElem (by omega : l.length - 1 < l.length)]
  exact List.getElem_mem _

theorem sorted_append_one (l : List Nat) (a : Nat)
    (hs : List.Sorted (· ≤ ·) l) (ha : ∀ x ∈ l, x ≤ a) :
    List.Sorted (· ≤ ·) (l ++ [a]) := by
  rw [List.Sorted, List.pairwise_append]
  exact ⟨hs, List.pairwise_singleton _ a, fun x hx y hy => by
    rw [List.mem_singleton.mp hy]; exact ha x hx⟩

theorem prefix_take_of_prefix (T tr : List Nat) (g : Nat)
    (h : T <+: tr) (hg : T.length ≤ g) : T <+: tr.take g := by
  have h1 : tr.take T.length = T := (List.prefix_iff_eq_take.mp h).symm
  have h2 : (tr.take g).take T.length = tr.take T.length := by
    rw [List.take_take, Nat.min_eq_left hg]
  rw [← h1, ← h2]
  exact List.take_prefix _ _

/-- Opening a new decision level extends the pending boundaries. -/
theorem InvCI_newLevel (tl0 T0 : List Nat) (e : Engine) (lims : List Nat)
    (h : InvCI tl0 T0 e lims) :
    InvCI tl0 T0 e.newDecisionLevel (lims ++ [e.trail.length]) := by
  obtain ⟨h1, h2, h3, h4, h5, h6⟩ := h
  refine ⟨?_, h2, by simp, ?_, ?_, ?_⟩
  · simp [Engine.newDecisionLevel, h1]
  · intro x hx
    rcases List.mem_append.mp hx with hx | hx
    · exact h4 x hx
    · rw [List.mem_singleton.mp hx]
      exact ⟨h2.length_le, le_refl _⟩
  · intro _
    cases lims with
    | nil =>
        simp [h3 rfl]
    | cons a rest =>
        have := h5 (by simp)
        simpa using this
  · exact sorted_append_one lims e.trail.length h6 (fun x hx => (h4 x hx).2)

/-- Appending to the trail preserves the invariant. -/
theorem InvCI_extend (tl0 T0 : List Nat) (e : Engine) (lims : List Nat)
    (xs : List Nat) (h : InvCI tl0 T0 e lims) (hne : lims ≠ []) :
    InvCI tl0 T0 { e with trail := e.trail ++ xs } lims := by
  obtain ⟨h1, h2, h3, h4, h5, h6⟩ := h
  refine ⟨h1, h2.trans (List.prefix_append _ _), fun hl => absurd hl hne, ?_, h5, h6⟩
  intro x hx
  have := h4 x hx
  simp only [List.length_append]
  omega

/-- A cancel sentinel closes the innermost pending level. -/
theorem InvCI_cancel (tl0 T0 : List Nat) (e : Engine) (lims : List Nat)
    (h : InvCI tl0 T0 e lims) (hne : lims ≠ []) :
    InvCI tl0 T0 (e.cancelUntil (e.decisionLevel - 1)) lims.dropLast := by
  obtain ⟨h1, h2, h3, h4, h5, h6⟩ := h
  have hlpos : 0 < lims.length := List.length_pos.mpr hne
  have hdl : e.decisionLevel = tl0.length + lims.length := by
    rw [Engine.decisionLevel, h1, List.length_append]
  set g := lims.getD (lims.length - 1) 0 with hg
  have hgmem : g ∈ lims := getD_last_mem lims hne
  have hgb := h4 g hgmem
  have htake : e.trailLim.take (e.decisionLevel - 1) = tl0 ++ lims.dropLast := by
    rw [h1, hdl, Nat.add_sub_assoc hlpos, List.take_append,
      ← List.dropLast_eq_take]
  have hgetD : e.trailLim.getD (e.decisionLevel - 1) 0 = g := by
    rw [h1, hdl, Nat.add_sub_assoc hlpos]
    rw [List.getD_eq_getElem?_getD, List.getElem?_append_right (by omega)]
    simp only [Nat.add_sub_cancel_left]
    rw [← List.getD_eq_getElem?_getD]
  have hcancel : e.cancelUntil (e.decisionLevel - 1)
      = { e with trail := e.trail.take g, trailLim := tl0 ++ lims.dropLast } := by
    rw [Engine.cancelUntil, if_pos (by omega), hgetD, htake]
  rw [hcancel]
  have htklen : (e.trail.take g).length = g :=
    List.length_take_of_le hgb.2
  refine ⟨by simp, prefix_take_of_prefix T0 e.trail g h2 hgb.1, ?_, ?_, ?_, ?_⟩
  · intro hdrop
    have hlen1 : lims.length = 1 := by
      have := List.length_dropLast lims
      rw [hdrop] at this
      simp at this
      omega
    have hhead := h5 hne
    have : g = T0.length := by
      cases hl : lims with
      | nil => exact absurd hl hne
      | cons a rest =>
          rw [hl] at hlen1
          simp at hlen1
          rw [hl] at hhead
          simp at hhead
          rw [hg, hl, hlen1]
          simpa using hhead
    rw [this]
    exact ((List.prefix_iff_eq_take.mp h2).symm)
  · intro x hx
    have hxl : x ∈ lims := List.dropLast_subset lims hx
    refine ⟨(h4 x hxl).1, ?_⟩
    rw [htklen]
    exact sorted_le_last lims h6 x hxl
  · intro hdrop
    rw [head?_dropLast lims hdrop]
    exact h5 hne
  · exact List.Pairwise.sublist (List.dropLast_sublist lims) h6

/-- Trail extension in invariant form: any engine with the same level
stack and an extended trail satisfies the invariant. -/
theorem InvCI_extendTo (tl0 T0 : List Nat) (e : Engine) (lims : List Nat)
    (e' : Engine) (h : InvCI tl0 T0 e lims) (hne : lims ≠ [])
    (hlim : e'.trailLim = e.trailLim) (htr : e.trail <+: e'.trail) :
    InvCI tl0 T0 e' lims := by
  obtain ⟨h1, h2, h3, h4, h5, h6⟩ := h
  refine ⟨by rw [hlim, h1], h2.trans htr, fun hl => absurd hl hne, ?_, h5, h6⟩
  intro x hx
  have := h4 x hx
  have hlen := htr.length_le
  omega

/-- Executing any path whose prefixes never over-cancel preserves the
invariant; this covers the normal exit and both conflict exits. -/
theorem cubifyPath_inv (vals : Nat → Lbool) (propConf : Nat → Bool)
    (propLits : Nat → List Nat) (propDelta : Nat → Nat)
    (pid : Int) (trail0 : Nat) (tl0 T0 : List Nat) :
    ∀ (path : List (Option Nat)) (st : CIState) (lims : List Nat),
      pathOK lims.length path → InvCI tl0 T0 st.eng lims →
      ∃ lims', InvCI tl0 T0
        (cubifyPath vals propConf propLits propDelta pid trail0 path st).eng
        lims' := by
  intro path
  induction path with
  | nil =>
      intro st lims _ hInv
      exact ⟨lims, hInv⟩
  | cons mv rest ih =>
      intro st lims hOK hInv
      match mv with
      | Option.none =>
          obtain ⟨hpos, hOK2⟩ := hOK
          have hne : lims ≠ [] := by
            intro h
            rw [h] at hpos
            simp at hpos
          rw [cubifyPath]
          refine ih _ lims.dropLast ?_ ?_
          · simpa [List.length_dropLast] using hOK2
          · exact InvCI_cancel tl0 T0 st.eng lims hInv hne
      | Option.some L =>
          have hOK2 : pathOK (lims ++ [st.eng.trail.length]).length rest := by
            simpa using hOK
          have hNew := InvCI_newLevel tl0 T0 st.eng lims hInv
          rw [cubifyPath]
          cases hv : vals st.m with
          | lfalse =>
              refine ⟨lims ++ [st.eng.trail.length], ?_⟩
              simpa using hNew
          | ltrue =>
              refine ih _ (lims ++ [st.eng.trail.length]) hOK2 ?_
              simpa using hNew
          | lundef =>
              have hext : InvCI tl0 T0
                  (⟨(st.eng.newDecisionLevel.enqueue L).trail ++ propLits st.m,
                    st.eng.newDecisionLevel.trailLim⟩ : Engine)
                  (lims ++ [st.eng.trail.length]) := by
                refine InvCI_extendTo tl0 T0 st.eng.newDecisionLevel _ _ hNew
                  (by simp) rfl ?_
                simp [Engine.enqueue, List.append_assoc]
              cases hpc : propConf st.m with
              | true =>
                  refine ⟨lims ++ [st.eng.trail.length], ?_⟩
                  simpa [Engine.enqueue] using hext
              | false =>
                  simp only [Bool.false_eq_true, if_false]
                  split_ifs with hsz hsc
                  · refine ih _ (lims ++ [st.eng.trail.length]) hOK2 ?_
                    simpa [Engine.enqueue] using hext
                  · refine ih _ (lims ++ [st.eng.trail.length]) hOK2 ?_
                    simpa [Engine.enqueue] using hext
                  · refine ih _ (lims ++ [st.eng.trail.length]) hOK2 ?_
                    simpa [Engine.enqueue] using hext
                  · refine ih _ (lims ++ [st.eng.trail.length]) hOK2 ?_
                    simpa [Engine.enqueue] using hext

/-- Cancelling to the entry level restores the snapshot. -/
theorem cancelUntil_restore (tl0 T0 : List Nat) (e : Engine) (lims : List Nat)
    (h : InvCI tl0 T0 e lims) :
    (e.cancelUntil tl0.length).trailLim = tl0 ∧
    (e.cancelUntil tl0.length).trail = T0 := by
  obtain ⟨h1, h2, h3, h4, h5, h6⟩ := h
  cases lims with
  | nil =>
      have hdl : e.decisionLevel = tl0.length := by
        rw [Engine.decisionLevel, h1]
        simp
      rw [Engine.cancelUntil, if_neg (by omega)]
      exact ⟨by rw [h1]; simp, h3 rfl⟩
  | cons a rest =>
      have hdl : e.decisionLevel = tl0.length + (rest.length + 1) := by
        rw [Engine.decisionLevel, h1]
        simp
      have hhead : a = T0.length := by
        have := h5 (by simp)
        simpa using this
      rw [Engine.cancelUntil, if_pos (by omega)]
      constructor
      · rw [h1]
        exact List.take_left tl0 (a :: rest)
      · have hgd : e.trailLim.getD tl0.length 0 = a := by
          rw [h1, List.getD_eq_getElem?_getD,
            List.getElem?_append_right (le_refl tl0.length)]
          simp
        rw [hgd, hhead]
        exact (List.prefix_iff_eq_take.mp h2).symm

/-- Claim C4: `cubifyInternal`, entered at decision level `L0`, exits at
level `L0` with the trail restored, on the normal path and on every
early-exit path (false literal or propagation conflict), for any path
whose prefixes never cancel more levels than they opened. -/
theorem claim_C4_cubifyInternal_restores (vals : Nat → Lbool)
    (propConf : Nat → Bool) (propLits : Nat → List Nat)
    (propDelta : Nat → Nat) (pid : Int) (root : Cube)
    (path : List (Option Nat)) (eng0 : Engine) (cq0 : CubeQueue)
    (ld0 : List Int) (props0 : Nat) (hwf : pathOK 0 path) :
    (cubifyInternal vals propConf propLits propDelta pid root path eng0
      cq0 ld0 props0).2.eng.trailLim = eng0.trailLim ∧
    (cubifyInternal vals propConf propLits propDelta pid root path eng0
      cq0 ld0 props0).2.eng.trail = eng0.trail ∧
    (cubifyInternal vals propConf propLits propDelta pid root path eng0
      cq0 ld0 props0).2.eng.decisionLevel = eng0.decisionLevel := by
  have hInv0 : InvCI eng0.trailLim eng0.trail eng0 [] := by
    refine ⟨by simp, List.prefix_refl _, fun _ => rfl, by simp, by simp, ?_⟩
    simp
  obtain ⟨lims', hInv'⟩ := cubifyPath_inv vals propConf propLits propDelta pid
    eng0.trail.length eng0.trailLim eng0.trail path
    ⟨eng0, ⟨[]⟩, [], false, cq0, ld0, props0, 0⟩ [] (by simpa using hwf) hInv0
  have hres := cancelUntil_restore eng0.trailLim eng0.trail _ lims' hInv'
  exact ⟨hres.1, hres.2, congrArg List.length hres.1⟩

/-- Witness for claim C4 at a concrete path with one push, one cancel,
and a final push; the level stack and trail are restored. -/
theorem claim_C4_witness :
    (cubifyInternal (fun _ => Lbool.lundef) (fun _ => false) (fun _ => [8])
      (fun _ => 3) 0 ⟨[4, 6]⟩ [Option.some 4, Option.none, Option.some 6]
      ⟨[2], [0]⟩ (CubeQueue.mk 10 0 0 [] []) [] 0).2.eng.trailLim = [0] ∧
    (cubifyInternal (fun _ => Lbool.lundef) (fun _ => false) (fun _ => [8])
      (fun _ => 3) 0 ⟨[4, 6]⟩ [Option.some 4, Option.none, Option.some 6]
      ⟨[2], [0]⟩ (CubeQueue.mk 10 0 0 [] []) [] 0).2.eng.trail = [2] := by
  have h := claim_C4_cubifyInternal_restores (fun _ => Lbool.lundef)
    (fun _ => false) (fun _ => [8]) (fun _ => 3) 0 ⟨[4, 6]⟩
    [Option.some 4, Option.none, Option.some 6] ⟨[2], [0]⟩
    (CubeQueue.mk 10 0 0 [] []) [] 0 (by decide)
  exact ⟨h.1, h.2.1⟩

/-! ### CubifyingSolver: clause bookkeeping, refuteCube, pruneClause

The clause database is the `clauses` vector of the engine; a clause is its
literal list.  `removeClause`'s engine-internal effects (watchers,
statistics) are outside the model. -/

/-- The solver state touched by `refuteCube`, `pruneClause` and the head
of `cubify`. -/
structure SolverState where
  clauses : List (List Nat)
  bi : Bimap
  ci : CI
  cq : CubeQueue
  cubifyQueue : List Int
  ok : Bool

/-- `CubifyingSolverBase::dropClause`: swap slot `i` with the last slot,
shrink, and keep the Bimap synchronized (`bi.swap(i, last); bi.drop(last)`;
in the `i == last` case only `bi.drop`). -/
def SolverState.dropClause (s : SolverState) (i : Nat) : SolverState :=
  let j := s.clauses.length - 1
  if i = j then
    { s with bi := s.bi.drop j, clauses := s.clauses.take j }
  else
    { s with
        clauses := (s.clauses.set i (s.clauses.getD j [])).take j,
        bi := (s.bi.swap i j).drop j }

/-- Modelled from the spec: the engine's `addClause_` (the patched MiniSat
`Solver`, not part of src/cs) appends the clause at the next transient
slot and the Bimap is updated synchronously with the add (spec section 5),
minting a fresh persistent id via `Bimap::add` (spec section 4.4).  The
model covers the successful level-0 add of a non-trivial clause: the
clause is stored unmodified and the call reports success. -/
def SolverState.addClauseM (s : SolverState) (lits : List Nat) :
    SolverState × Int × Bool :=
  let slot := s.clauses.length
  let bj := s.bi.add slot
  ({ s with clauses := s.clauses ++ [lits], bi := bj.1 }, bj.2, true)

/-- `CubifyingSolverBase::learnNegationOf`: add the inverted cube. -/
def SolverState.learnNegationOf (s : SolverState) (cube : Cube) :
    SolverState × Int × Bool :=
  s.addClauseM cube.invert

/-- `CubifyingSolver::refuteCube`: pop `base`; drop every parent clause
whose persistent id still resolves; if `reduced` is unknown to the index,
record `clauses.size()` on `cubifyQueue`, learn `¬reduced`, mark it. -/
def SolverState.refuteCube (s : SolverState) (base reduced : Cube) :
    SolverState × Lbool :=
  let ii := s.cq.getParentInds base
  let s1 := { s with cq := s.cq.pop base }
  let s2 := ii.foldl (fun acc i =>
      let j := acc.bi.fw i
      if 0 ≤ j then acc.dropClause j.toNat else acc) s1
  let s3 := if CI.contains reduced.literals s2.ci = false then
      let sq := { s2 with
        cubifyQueue := s2.cubifyQueue ++ [(s2.clauses.length : Int)] }
      let sl := (sq.learnNegationOf reduced).1
      { sl with ci := CI.push reduced.literals sl.ci }
    else s2
  (s3, if s3.ok then Lbool.lundef else Lbool.lfalse)

/-- `CubifyingSolver::pruneClause`: drop the clause, and add `¬C` when the
index does not know `C`.  On the `ci.contains(C)` branch the source falls
off the end of the function without a return value; modelled from the
spec: the no-op is treated as success (spec section 9, open questions). -/
def SolverState.pruneClause (s : SolverState) (i : Nat) (C : Cube) :
    SolverState × Bool :=
  let s1 := s.dropClause i
  if CI.contains C.literals s1.ci = false then
    let r := s1.addClauseM C.invert
    (r.1, r.2.2)
  else (s1, true)

/-- The root-building loop at the head of `CubifyingSolver::cubify`:
a true literal means the clause is satisfied (`none`); false literals are
skipped; undefined literals contribute their negations. -/
def rootLoop (val : Nat → Lbool) : List Nat → Cube → Option Cube
| [], root => some root
| L :: rest, root =>
    match val L with
    | Lbool.ltrue => none
    | Lbool.lfalse => rootLoop val rest root
    | Lbool.lundef => rootLoop val rest (root.push (litNeg L))

/-- The outcome of the head of `cubify(i)` (before `cubifyInternal`). -/
inductive CubifyHead where
| satisfied : CubifyHead
| tooBig : CubifyHead
| pruned : Lbool → CubifyHead
| descend : Cube → CubifyHead
deriving DecidableEq, Repr

/-- `CubifyingSolver::cubify` up to the dispatch on the root size: return
`l_Undef` if the clause is satisfied; if the root exceeds
`maxCubifiableSize`, prune when the clause has shrunk, else skip;
otherwise descend into `cubifyInternal`. -/
def cubifyStep (val : Nat → Lbool) (maxCS : Nat) (s : SolverState)
    (i : Nat) : SolverState × CubifyHead :=
  let clause := s.clauses.getD i []
  match rootLoop val clause ⟨[]⟩ with
  | none => (s, CubifyHead.satisfied)
  | some root =>
      if maxCS < root.size then
        if root.size < clause.length then
          let r := s.pruneClause i root
          (r.1, CubifyHead.pruned (if r.2 then Lbool.lundef else Lbool.lfalse))
        else (s, CubifyHead.tooBig)
      else (s, CubifyHead.descend root)

/-- Initial state for the C2 scenario: two problem clauses `[1]` (pid 0,
slot 0) and `[3]` (pid 1, slot 1); the queue holds the cube `{4}` with
score 5 and parent pid 0; the index and the cubify queue are empty. -/
def c2State : SolverState :=
  ⟨[[1], [3]],
   ⟨2, [(0, 0), (1, 1)], [0, 1], []⟩,
   CI.node [] [],
   ⟨1000000, 5, 1, [(5, [⟨[4]⟩])], [(⟨[4]⟩, 5, [0])]⟩,
   [],
   true⟩

/-- Claim C2, evaluated at the failing input: `refuteCube({4}, {4})` pops
the base cube, deletes the live parent clause `[1]`, adds `¬{4} = [5]` and
marks the index — but the value it pushes onto `cubifyQueue` is
`clauses.size() = 1`, a transient slot number, while the persistent id
minted for the new clause is `2`; the queued id `1` resolves through the
Bimap to slot `0`, which holds the unrelated surviving clause `[3]`. -/
theorem claim_C2_refuteCube_queues_transient :
    (c2State.refuteCube ⟨[4]⟩ ⟨[4]⟩).2 = Lbool.lundef ∧
    (c2State.refuteCube ⟨[4]⟩ ⟨[4]⟩).1.cq.contains ⟨[4]⟩ = false ∧
    (c2State.refuteCube ⟨[4]⟩ ⟨[4]⟩).1.clauses = [[3], [5]] ∧
    CI.contains [4] (c2State.refuteCube ⟨[4]⟩ ⟨[4]⟩).1.ci = true ∧
    (c2State.refuteCube ⟨[4]⟩ ⟨[4]⟩).1.cubifyQueue = [1] ∧
    (c2State.refuteCube ⟨[4]⟩ ⟨[4]⟩).1.bi.fw 2 = 1 ∧
    (c2State.refuteCube ⟨[4]⟩ ⟨[4]⟩).1.bi.fw 1 = 0 := by
  norm_num [c2State, SolverState.refuteCube, SolverState.dropClause,
    SolverState.learnNegationOf, SolverState.addClauseM,
    CubeQueue.getParentInds, CubeQueue.pop, CubeQueue.contains,
    imGet, imErase, mapGet, swErase, swSet, removeFirstCube,
    Bimap.fw, Bimap.swap, Bimap.drop, Bimap.add, Bimap.bw, atD, ensureSize,
    pttGet, pttSet, pttErase,
    CI.push, CI.contains, insertMark, lookupChild, setChild, childOrNew,
    Cube.invert, litNeg]
  decide

/-- Claim C7: when the root cube (negations of the undefined literals, no
true literal) is larger than `maxCubifiableSize` but smaller than the
clause, `cubify` prunes: it returns success (`l_Undef`), deletes clause
`i` (Bimap kept synchronized by `dropClause`), and, exactly when the root
is not in the CubeIndex, appends `¬root` as a new clause whose fresh
persistent id resolves to its slot; when the root is already indexed the
prune is the bare deletion, still reported as success. -/
theorem claim_C7_cubify_prune (val : Nat → Lbool) (maxCS : Nat)
    (s : SolverState) (i : Nat) (root : Cube)
    (hroot : rootLoop val (s.clauses.getD i []) ⟨[]⟩ = some root)
    (hbig : maxCS < root.size)
    (hshrunk : root.size < (s.clauses.getD i []).length) :
    ((cubifyStep val maxCS s i).2 = CubifyHead.pruned Lbool.lundef) ∧
    (CI.contains root.literals (s.dropClause i).ci = false →
      (cubifyStep val maxCS s i).1.clauses
        = (s.dropClause i).clauses ++ [root.invert] ∧
      (cubifyStep val maxCS s i).1.bi.fw (s.dropClause i).bi.next_free_index
        = ((s.dropClause i).clauses.length : Int)) ∧
    (CI.contains root.literals (s.dropClause i).ci = true →
      (cubifyStep val maxCS s i).1 = s.dropClause i) := by
  have hstep : cubifyStep val maxCS s i
      = ((s.pruneClause i root).1,
         CubifyHead.pruned
           (if (s.pruneClause i root).2 then Lbool.lundef else Lbool.lfalse)) := by
    rw [cubifyStep]
    rw [hroot]
    simp only [if_pos hbig, if_pos hshrunk]
  by_cases hci : CI.contains root.literals (s.dropClause i).ci = false
  · have hprune : s.pruneClause i root
        = (((s.dropClause i).addClauseM root.invert).1, true) := by
      rw [SolverState.pruneClause, if_pos hci]
      rfl
    refine ⟨?_, ?_, ?_⟩
    · rw [hstep, hprune]
      rfl
    · intro _
      constructor
      · rw [hstep, hprune]
        rfl
      · rw [hstep, hprune]
        show ((s.dropClause i).bi.add (s.dropClause i).clauses.length).1.fw
          (s.dropClause i).bi.next_free_index = _
        rw [Bimap.add, Bimap.fw]
        simp only [pttGet_set_self]
    · intro hc
      rw [hc] at hci
      simp at hci
  · have hc : CI.contains root.literals (s.dropClause i).ci = true := by
      simpa using hci
    have hprune : s.pruneClause i root = (s.dropClause i, true) := by
      rw [SolverState.pruneClause, if_neg (by simp [hc])]
    refine ⟨?_, ?_, ?_⟩
    · rw [hstep, hprune]
      rfl
    · intro hc2
      rw [hc2] at hc
      simp at hc
    · intro _
      rw [hstep, hprune]

/-- Initial state for the C7 witness: one clause `[1, 3, 5, 7]` at slot 0
with persistent id 0. -/
def c7State : SolverState :=
  ⟨[[1, 3, 5, 7]], ⟨1, [(0, 0)], [0], []⟩, CI.node [] [],
   CubeQueue.mk 1000000 0 0 [] [], [0], true⟩

/-- Witness for claim C7: with literal `1` false and the rest undefined,
the root `{2, 4, 6}` has size 3, above the cap 2 but below the clause
size 4, so the clause is pruned and its negated root appended. -/
theorem claim_C7_witness :
    (cubifyStep (fun L => if L = 1 then Lbool.lfalse else Lbool.lundef)
      2 c7State 0).2 = CubifyHead.pruned Lbool.lundef ∧
    (cubifyStep (fun L => if L = 1 then Lbool.lfalse else Lbool.lundef)
      2 c7State 0).1.clauses
      = (c7State.dropClause 0).clauses ++ [(⟨[2, 4, 6]⟩ : Cube).invert] := by
  have h := claim_C7_cubify_prune
    (fun L => if L = 1 then Lbool.lfalse else Lbool.lundef) 2 c7State 0
    ⟨[2, 4, 6]⟩ (by decide) (by decide) (by decide)
  exact ⟨h.1, (h.2.1 (by decide)).1⟩

end CS
